import Mathlib

set_option autoImplicit false

/-!
Verification development for the `Main_Toolbar` Anki add-on repository.

The development shallowly embeds the pure data manipulation performed by

  * `src/utils.py` — the menu-path registry (`addon_actions`,
    `register_addon_tool`, `_refresh_menu` with its inner
    `add_nested_action`) and icon-path resolution (`resolve_icon_path`);
  * `src/Run_add_ons.py` — declarative tool loading
    (`load_tools_from_config`, `get_or_create_submenu`);
  * `src/toolbar_editor.py` — the editor's save/load pipeline
    (`ToolbarManager.save_tools`, `ToolbarManager.load_tools`,
    `ToolbarManager.add_row`).

Python strings are modelled as `List Char`.  Qt menu trees are modelled by
the inductive type `Node`: a `QMenu` is a `Node.menu` with its ordered
`actions()` list as children; a `QAction` carrying a callback is a
`Node.action` (the callback itself is represented by an opaque `Nat`
identifier); a separator is `Node.sep`.  Dynamic module/function lookup
(`importlib.import_module` + `getattr`) is modelled by a finite environment
mapping `(module, function)` name pairs to callback identifiers; a pair
absent from the environment is a failing lookup.  File-system and host-UI
side effects (writing JSON, `mw.form.menubar`, `showText` dialogs) are out
of scope except for their data content: emitted error dialogs are collected
in a message list.

Paths are modelled with POSIX semantics (`os.path.isabs` = leading `'/'`,
`os.path.join` drops earlier components when a later one is absolute).
-/

namespace MainToolbar

/-- Python strings are modelled as lists of characters. -/
abbrev Str := List Char

/-- Shorthand turning a Lean string literal into the `List Char` model. -/
abbrev strL (s : String) : Str := s.toList

/-- Characters stripped by Python's `str.strip()` with no argument. -/
def isPySpace (c : Char) : Bool :=
  c == ' ' || c == '\t' || c == '\n' || c == '\x0d' || c == '\x0b' || c == '\x0c'

/-- Python `s.strip()`: drop leading and trailing whitespace. -/
def pyStrip (s : Str) : Str :=
  ((s.dropWhile isPySpace).reverse.dropWhile isPySpace).reverse

/-- ASCII lowering of one character, modelling `str.lower()` on the ASCII
names appearing in this code base. -/
def asciiLowerChar (c : Char) : Char :=
  if 'A' ≤ c ∧ c ≤ 'Z' then Char.ofNat (c.toNat + 32) else c

/-- Python `s.lower()` restricted to ASCII. -/
def pyLower (s : Str) : Str := s.map asciiLowerChar

/-- Truthiness of an optional string: Python's `not x` is true exactly for
`None` and for the empty string. -/
def optFalsy (o : Option Str) : Bool :=
  match o with
  | none => true
  | some s => s.isEmpty

/-- POSIX `os.path.isabs`: the path starts with a slash. -/
def pyIsAbs (s : Str) : Bool :=
  match s with
  | '/' :: _ => true
  | _ => false

/-- POSIX `os.path.join` for two components: a later absolute component
replaces everything before it; otherwise a single separator is inserted
unless the first component is empty or already ends in one. -/
def pyJoin (a b : Str) : Str :=
  if pyIsAbs b then b
  else if a = [] then b
  else if a.getLast? = some '/' then a ++ b
  else a ++ '/' :: b

/-- Python `path.replace(":assets/", "")`: remove every (leftmost,
non-overlapping) occurrence of the marker `":assets/"`. -/
def replaceColonAssets : Str → Str
  | ':' :: 'a' :: 's' :: 's' :: 'e' :: 't' :: 's' :: '/' :: rest => replaceColonAssets rest
  | c :: rest => c :: replaceColonAssets rest
  | [] => []

/-- Embedding of `resolve_icon_path` (src/utils.py lines 26-52): resolve an
icon path relative to the add-on directory `addon_dir`
(`os.path.dirname(__file__)` at run time, here a parameter). -/
def resolve_icon_path (addon_dir : Str) (path : Str) : Str :=
  if path = [] then []
  else if pyIsAbs path then path
  else if (strL ":assets/").isPrefixOf path then
    pyJoin (pyJoin addon_dir (strL "assets")) (replaceColonAssets path)
  else if (strL ":").isPrefixOf path then path
  else if (strL "assets/").isPrefixOf path || (strL "icons/").isPrefixOf path then
    pyJoin addon_dir path
  else pyJoin (pyJoin addon_dir (strL "icons")) path

/-- A boolean computed to `false` is not `true`. -/
theorem bool_ne_true {b : Bool} (h : b = false) : ¬b = true := by simp [h]

/-- C3 — `resolve_icon_path` is a pure function of its string argument (for a
fixed add-on directory) applying an ordered, first-match-wins rule chain:
empty input yields the empty result (Python's `None` is handled by the same
falsiness test); an absolute path is returned unchanged; a `":assets/"`
prefix is rewritten under the real on-disk assets directory; a remaining
`":"` prefix is returned unchanged; an `"assets/"` or `"icons/"` prefix is
joined with the add-on root; every other path is joined under the add-on's
`icons/` subdirectory.  Each conjunct states one rule, with the negations of
all earlier rules as hypotheses where they are not already forced by the
matching rule itself (a `":assets/"`-prefixed path is never absolute, so the
third conjunct needs no such hypothesis; a path prefixed by `":"` but not
`":assets/"` is returned unchanged even though the catch-all would have sent
it elsewhere, which exhibits the priority order). -/
theorem resolve_icon_path_rule_chain (d : Str) :
    (resolve_icon_path d [] = []) ∧
    (∀ p, pyIsAbs p = true → resolve_icon_path d p = p) ∧
    (∀ p, (strL ":assets/").isPrefixOf p = true →
      resolve_icon_path d p =
        pyJoin (pyJoin d (strL "assets")) (replaceColonAssets p)) ∧
    (∀ p, (strL ":").isPrefixOf p = true → (strL ":assets/").isPrefixOf p = false →
      resolve_icon_path d p = p) ∧
    (∀ p, (strL "assets/").isPrefixOf p = true ∨ (strL "icons/").isPrefixOf p = true →
      resolve_icon_path d p = pyJoin d p) ∧
    (∀ p, p ≠ [] → pyIsAbs p = false → (strL ":").isPrefixOf p = false →
      (strL "assets/").isPrefixOf p = false → (strL "icons/").isPrefixOf p = false →
      resolve_icon_path d p = pyJoin (pyJoin d (strL "icons")) p) := by
  refine ⟨rfl, ?_, ?_, ?_, ?_, ?_⟩
  · intro p hp
    have hne : p ≠ [] := by
      intro h
      rw [h] at hp
      exact absurd hp (by decide)
    simp only [resolve_icon_path]
    rw [if_neg hne, if_pos hp]
  · intro p hp
    obtain ⟨t, rfl⟩ := List.isPrefixOf_iff_prefix.mp hp
    have c2 : pyIsAbs (strL ":assets/" ++ t) = false := rfl
    have c3 : (strL ":assets/").isPrefixOf (strL ":assets/" ++ t) = true := by
      simp +decide [List.isPrefixOf]
    simp only [resolve_icon_path]
    rw [if_neg (by simp [strL]), if_neg (bool_ne_true c2), if_pos c3]
  · intro p hp hnp
    obtain ⟨t, rfl⟩ := List.isPrefixOf_iff_prefix.mp hp
    have c2 : pyIsAbs (strL ":" ++ t) = false := rfl
    have c4 : (strL ":").isPrefixOf (strL ":" ++ t) = true := by
      simp +decide [List.isPrefixOf]
    simp only [resolve_icon_path]
    rw [if_neg (by simp [strL]), if_neg (bool_ne_true c2), if_neg (bool_ne_true hnp),
      if_pos c4]
  · intro p hp
    rcases hp with hp | hp
    · obtain ⟨t, rfl⟩ := List.isPrefixOf_iff_prefix.mp hp
      have c2 : pyIsAbs (strL "assets/" ++ t) = false := rfl
      have c3 : (strL ":assets/").isPrefixOf (strL "assets/" ++ t) = false := rfl
      have c4 : (strL ":").isPrefixOf (strL "assets/" ++ t) = false := rfl
      have c5 : ((strL "assets/").isPrefixOf (strL "assets/" ++ t) ||
          (strL "icons/").isPrefixOf (strL "assets/" ++ t)) = true := by
        simp +decide [List.isPrefixOf]
      simp only [resolve_icon_path]
      rw [if_neg (by simp [strL]), if_neg (bool_ne_true c2), if_neg (bool_ne_true c3),
        if_neg (bool_ne_true c4), if_pos c5]
    · obtain ⟨t, rfl⟩ := List.isPrefixOf_iff_prefix.mp hp
      have c2 : pyIsAbs (strL "icons/" ++ t) = false := rfl
      have c3 : (strL ":assets/").isPrefixOf (strL "icons/" ++ t) = false := rfl
      have c4 : (strL ":").isPrefixOf (strL "icons/" ++ t) = false := rfl
      have c5 : ((strL "assets/").isPrefixOf (strL "icons/" ++ t) ||
          (strL "icons/").isPrefixOf (strL "icons/" ++ t)) = true := by
        simp +decide [List.isPrefixOf]
      simp only [resolve_icon_path]
      rw [if_neg (by simp [strL]), if_neg (bool_ne_true c2), if_neg (bool_ne_true c3),
        if_neg (bool_ne_true c4), if_pos c5]
  · intro p hne habs hcolon hassets hicons
    have h3 : (strL ":assets/").isPrefixOf p = false := by
      rw [Bool.eq_false_iff]
      intro h
      exact bool_ne_true hcolon
        (List.isPrefixOf_iff_prefix.mpr
          (List.IsPrefix.trans (by decide) (List.isPrefixOf_iff_prefix.mp h)))
    simp only [resolve_icon_path]
    rw [if_neg hne, if_neg (bool_ne_true habs), if_neg (bool_ne_true h3),
      if_neg (bool_ne_true hcolon), if_neg (by rw [hassets, hicons]; simp)]

/-- Concrete instantiations of `resolve_icon_path_rule_chain`: one witness
per guarded rule, at the add-on directory `/addon`. -/
theorem resolve_icon_path_rule_chain_witness :
    (resolve_icon_path (strL "/addon") (strL "/abs/x.png") = strL "/abs/x.png") ∧
    (resolve_icon_path (strL "/addon") (strL ":assets/i.png") =
      pyJoin (pyJoin (strL "/addon") (strL "assets")) (replaceColonAssets (strL ":assets/i.png"))) ∧
    (resolve_icon_path (strL "/addon") (strL ":qt-res") = strL ":qt-res") ∧
    (resolve_icon_path (strL "/addon") (strL "icons/x.png") =
      pyJoin (strL "/addon") (strL "icons/x.png")) ∧
    (resolve_icon_path (strL "/addon") (strL "x.png") =
      pyJoin (pyJoin (strL "/addon") (strL "icons")) (strL "x.png")) :=
  ⟨(resolve_icon_path_rule_chain (strL "/addon")).2.1 _ (by decide),
   (resolve_icon_path_rule_chain (strL "/addon")).2.2.1 _ (by decide),
   (resolve_icon_path_rule_chain (strL "/addon")).2.2.2.1 _ (by decide) (by decide),
   (resolve_icon_path_rule_chain (strL "/addon")).2.2.2.2.1 _ (Or.inr (by decide)),
   (resolve_icon_path_rule_chain (strL "/addon")).2.2.2.2.2 _ (by decide) (by decide)
     (by decide) (by decide) (by decide)⟩

/-! ### Menu trees

A Qt menu tree is modelled by `Node`: `Node.menu` is a `QMenu` (its ordered
`actions()` list as children, a child being either a submenu's `menuAction`
or a plain `QAction`); `Node.action` is a `QAction` with display name,
optional connected callback (`None` for the editor's non-clickable labels),
the icon path passed to `QIcon` (if any) and the enabled flag; `Node.sep` is
a separator. -/
inductive Node where
  | menu (title : Str) (children : List Node)
  | action (name : Str) (cb : Option Nat) (icon : Option Str) (enabled : Bool)
  | sep

/-- Whether a node is a submenu (`a.menu()` is non-null in Qt terms). -/
def isMenuNode : Node → Bool
  | .menu _ _ => true
  | _ => false

/-- Whether a node is a `QAction` (clickable or not). -/
def isActionNode : Node → Bool
  | .action _ _ _ _ => true
  | _ => false

/-- The title of a menu node (unused default for non-menus). -/
def menuTitle : Node → Str
  | .menu t _ => t
  | _ => []

/-- The ordered `actions()` list of a menu (empty for non-menus). -/
def nodeChildren : Node → List Node
  | .menu _ cs => cs
  | _ => []

/-- Titles of the submenu children of a menu's child list, in order. -/
def menuTitlesOf (cs : List Node) : List Str :=
  cs.filterMap fun c => match c with
    | .menu t _ => some t
    | _ => none

/-- The first submenu child with the given title:
`next((a.menu() for a in menu.actions() if a.menu() and a.menu().title() == head), None)`
in `add_nested_action` (src/utils.py line 92). -/
def findMenu (t : Str) : List Node → Option Node
  | [] => none
  | .menu t' cs' :: cs => if t' = t then some (.menu t' cs') else findMenu t cs
  | _ :: cs => findMenu t cs

/-- Apply `f` in place to the first submenu child titled `t`; `none` when no
such child exists.  This captures the mutation of the existing submenu
object found by `findMenu`. -/
def replaceFirstMenu (t : Str) (f : Node → Node) : List Node → Option (List Node)
  | [] => none
  | .menu t' cs' :: cs =>
    if t' = t then some (f (.menu t' cs') :: cs)
    else (replaceFirstMenu t f cs).map (fun r => .menu t' cs' :: r)
  | c :: cs => (replaceFirstMenu t f cs).map (fun r => c :: r)

/-- Append a child to a menu (`menu.addAction` / `menu.addMenu`). -/
def appendChild (n : Node) (c : Node) : Node :=
  match n with
  | .menu t cs => .menu t (cs ++ [c])
  | other => other

/-- Embedding of `add_nested_action` (src/utils.py lines 82-96), with the
leaf `QAction` it would construct passed in as a prebuilt node `a`: with an
empty path the action is appended to the current menu; otherwise the first
existing submenu child titled with the head segment is reused, or a fresh
empty submenu is appended, and the recursion continues inside it. -/
def add_nested_action (path : List Str) (a : Node) (n : Node) : Node :=
  match path with
  | [] => appendChild n a
  | h :: tl =>
    match n with
    | .menu t cs =>
      match replaceFirstMenu h (fun m => add_nested_action tl a m) cs with
      | some cs' => .menu t cs'
      | none => .menu t (cs ++ [add_nested_action tl a (.menu h [])])
    | other => other

/-! ### The registry `addon_actions` -/

/-- One registered tool entry: the tuple `(name, callback, icon, enabled)`
appended by `register_addon_tool`.  Callbacks are opaque identifiers. -/
structure Entry where
  name : Str
  cb : Nat
  icon : Option Str
  enabled : Bool
deriving DecidableEq

/-- The `addon_actions` module dictionary: insertion-ordered mapping from
submenu path string to the ordered entries registered under it. -/
abbrev Registry := List (Str × List Entry)

/-- First-occurrence association lookup (Python dict access). -/
def assocLookup {β : Type} (k : Str) : List (Str × β) → Option β
  | [] => none
  | (k', v) :: rest => if k' = k then some v else assocLookup k rest

/-- The keys of an association list, in insertion order. -/
def assocKeys {β : Type} (l : List (Str × β)) : List Str := l.map Prod.fst

/-- Python `d.setdefault(k, []).append(v)` on an insertion-ordered dict:
append `v` to the list at the first occurrence of `k`, or add a new final
binding `k ↦ [v]`. -/
def assocAppend {β : Type} (k : Str) (v : β) : List (Str × List β) → List (Str × List β)
  | [] => [(k, [v])]
  | (k', l) :: rest =>
    if k' = k then (k', l ++ [v]) :: rest else (k', l) :: assocAppend k v rest

/-- Embedding of `register_addon_tool` (src/utils.py lines 114-120) acting
on the registry state (`submenu_name or ""` is the identity on our `Str`
model since the empty string is already the falsy case). -/
def register_addon_tool (reg : Registry) (name : Str) (cb : Nat) (submenu_name : Str)
    (icon : Option Str) (enabled : Bool) : Registry :=
  assocAppend submenu_name ⟨name, cb, icon, enabled⟩ reg

/-- The arguments of one `register_addon_tool` call. -/
structure RegCall where
  name : Str
  cb : Nat
  submenu_name : Str
  icon : Option Str
  enabled : Bool
deriving DecidableEq

/-- The registry produced by a sequence of `register_addon_tool` calls
starting from the initial empty `addon_actions`. -/
def regState (calls : List RegCall) : Registry :=
  calls.foldl
    (fun reg c => register_addon_tool reg c.name c.cb c.submenu_name c.icon c.enabled) []

/-! ### Rebuilding the menus: `_refresh_menu` -/

/-- Python `s.split("::")`: split on the two-character separator, leftmost
and non-overlapping; the empty string yields `[""]`. -/
def splitColons : Str → List Str
  | [] => [[]]
  | ':' :: ':' :: rest => [] :: splitColons rest
  | c :: rest =>
    match splitColons rest with
    | [] => [[c]]
    | r :: rs => (c :: r) :: rs

/-- The top-level menu title a registry key is grouped under:
`submenu.split("::")[0] if submenu else CONFIG.get("toolbar_title", "Custom Tools")`
(src/utils.py lines 75 and 101); the configured title is the parameter. -/
def topKey (title : Str) (k : Str) : Str :=
  if k = [] then title else (splitColons k).headD []

/-- The nested path below the top-level menu:
`submenu_path.split("::")[1:] if submenu_path else []` (src/utils.py line 107). -/
def restKey (k : Str) : List Str :=
  if k = [] then [] else (splitColons k).drop 1

/-- Both coordinates of the leaf menu a registry key denotes. -/
def coords (title : Str) (k : Str) : Str × List Str := (topKey title k, restKey k)

/-- The icon path stored on a rendered `QAction`:
`if icon: action.setIcon(QIcon(resolve_icon_path(icon)))` (src/utils.py
lines 87-88) — only a truthy icon string is resolved and attached. -/
def rendered_icon (d : Str) (icon : Option Str) : Option Str :=
  match icon with
  | some s => if s = [] then none else some (resolve_icon_path d s)
  | none => none

/-- The `QAction` that `add_nested_action` builds for a registered entry. -/
def mkAction (d : Str) (e : Entry) : Node :=
  .action e.name (some e.cb) (rendered_icon d e.icon) e.enabled

/-- The `menu_groups` dictionary of `_refresh_menu` (src/utils.py lines
99-102): registry items grouped by top-level title, insertion-ordered. -/
def mkGroups (title : Str) (reg : Registry) : List (Str × List (Str × List Entry)) :=
  reg.foldl (fun gs kv => assocAppend (topKey title kv.1) kv gs) []

/-- Building one top-level menu from its group (src/utils.py lines 104-109):
fold every grouped `(submenu_path, actions)` pair, adding each entry at the
path below the top segment. -/
def buildTop (d : Str) (tg : Str × List (Str × List Entry)) : Node :=
  tg.2.foldl
    (fun m pv => pv.2.foldl
      (fun m' e => add_nested_action (restKey pv.1) (mkAction d e) m') m)
    (.menu tg.1 [])

/-- Embedding of the construction performed by `_refresh_menu`
(src/utils.py lines 72-110): the list of top-level menus it adds to the
menu bar, in order.  The preceding removal step only deletes the previously
materialized menus (every previously present top title is again a current
one, since registry keys are never deleted), so the menu bar contribution
after a refresh is exactly this list. -/
def refresh_menu (d : Str) (title : Str) (reg : Registry) : List Node :=
  (mkGroups title reg).map (buildTop d)

/-! ### Observations on built trees -/

/-- Walk a segment path from a node, following `findMenu` at each step. -/
def navigate (n : Node) : List Str → Option Node
  | [] => some n
  | h :: tl =>
    match findMenu h (nodeChildren n) with
    | some m => navigate m tl
    | none => none

/-- Locate the leaf menu at the given coordinates in a top-level menu list. -/
def navigateTop (trees : List Node) (c : Str × List Str) : Option Node :=
  match findMenu c.1 trees with
  | some m => navigate m c.2
  | none => none

/-- The `QAction` children of a node, in order. -/
def actsOf (n : Node) : List Node := (nodeChildren n).filter isActionNode

/-- The `QAction` children of the leaf menu at the given coordinates
(empty when the leaf does not exist). -/
def actsAtTop (trees : List Node) (c : Str × List Str) : List Node :=
  match navigateTop trees c with
  | some m => actsOf m
  | none => []

/-- Well-formedness of a built tree: at every menu, no two submenu children
share a title. -/
inductive Wf : Node → Prop where
  | action : ∀ n cb ic en, Wf (.action n cb ic en)
  | sep : Wf .sep
  | menu : ∀ t cs, (menuTitlesOf cs).Nodup → (∀ c ∈ cs, Wf c) → Wf (.menu t cs)

/-! ### Lemmas about `findMenu` and `replaceFirstMenu` -/

@[simp] theorem menuTitlesOf_nil : menuTitlesOf [] = [] := rfl

@[simp] theorem menuTitlesOf_cons_menu (t : Str) (cs₀ : List Node) (cs : List Node) :
    menuTitlesOf (Node.menu t cs₀ :: cs) = t :: menuTitlesOf cs := rfl

@[simp] theorem menuTitlesOf_cons_action (n : Str) (cb : Option Nat) (ic : Option Str)
    (en : Bool) (cs : List Node) :
    menuTitlesOf (Node.action n cb ic en :: cs) = menuTitlesOf cs := rfl

@[simp] theorem menuTitlesOf_cons_sep (cs : List Node) :
    menuTitlesOf (Node.sep :: cs) = menuTitlesOf cs := rfl

theorem findMenu_append_of_none {t : Str} {l₁ : List Node} (l₂ : List Node)
    (h : findMenu t l₁ = none) : findMenu t (l₁ ++ l₂) = findMenu t l₂ := by
  induction l₁ with
  | nil => simp
  | cons c cs ih =>
    cases c with
    | menu tc csc =>
      by_cases htc : tc = t
      · simp [findMenu, htc] at h
      · simp only [findMenu, if_neg htc] at h
        simpa [findMenu, htc] using ih h
    | action nm cb ic en => simp only [findMenu] at h ⊢; exact ih h
    | sep => simp only [findMenu] at h ⊢; exact ih h

theorem findMenu_append_of_some {t : Str} {l₁ : List Node} {m : Node} (l₂ : List Node)
    (h : findMenu t l₁ = some m) : findMenu t (l₁ ++ l₂) = some m := by
  induction l₁ with
  | nil => simp [findMenu] at h
  | cons c cs ih =>
    cases c with
    | menu tc csc =>
      by_cases htc : tc = t
      · simp only [findMenu, if_pos htc] at h ⊢
        simpa using h
      · simp only [findMenu, if_neg htc] at h ⊢
        exact ih h
    | action nm cb ic en => simp only [findMenu] at h ⊢; exact ih h
    | sep => simp only [findMenu] at h ⊢; exact ih h

theorem findMenu_eq_none_iff {t : Str} {cs : List Node} :
    findMenu t cs = none ↔ t ∉ menuTitlesOf cs := by
  induction cs with
  | nil => simp [findMenu, menuTitlesOf]
  | cons c cs ih =>
    cases c with
    | menu tc csc =>
      by_cases htc : tc = t
      · subst htc
        simp [findMenu, menuTitlesOf]
      · simp [findMenu, menuTitlesOf, htc, ih, Ne.symm htc]
    | action nm cb ic en => simpa [findMenu, menuTitlesOf] using ih
    | sep => simpa [findMenu, menuTitlesOf] using ih

theorem findMenu_shape {t : Str} {cs : List Node} {m : Node}
    (h : findMenu t cs = some m) : ∃ csc, m = Node.menu t csc := by
  induction cs with
  | nil => simp [findMenu] at h
  | cons c cs ih =>
    cases c with
    | menu tc csc =>
      by_cases htc : tc = t
      · subst htc
        simp only [findMenu, if_true, eq_self_iff_true, Option.some.injEq] at h
        first
        | exact ⟨csc, h⟩
        | exact ⟨csc, h.symm⟩
      · simp only [findMenu, if_neg htc] at h
        exact ih h
    | action nm cb ic en => simp only [findMenu] at h; exact ih h
    | sep => simp only [findMenu] at h; exact ih h

theorem menuTitlesOf_append (l₁ l₂ : List Node) :
    menuTitlesOf (l₁ ++ l₂) = menuTitlesOf l₁ ++ menuTitlesOf l₂ :=
  List.filterMap_append _ _ _

/-- Structure of a successful in-place replacement: the list decomposes at
the first submenu child titled `t`. -/
theorem replaceFirstMenu_some_decomp {t : Str} {f : Node → Node} :
    ∀ {cs cs' : List Node}, replaceFirstMenu t f cs = some cs' →
      ∃ pre csc post, cs = pre ++ Node.menu t csc :: post ∧
        cs' = pre ++ f (Node.menu t csc) :: post ∧ t ∉ menuTitlesOf pre := by
  intro cs
  induction cs with
  | nil => intro cs' h; simp [replaceFirstMenu] at h
  | cons c cs ih =>
    intro cs' h
    cases c with
    | menu tc csc =>
      by_cases htc : tc = t
      · subst htc
        simp only [replaceFirstMenu, if_true, eq_self_iff_true, Option.some.injEq] at h
        refine ⟨[], csc, cs, by simp, ?_, by simp⟩
        simp only [List.nil_append]
        exact h.symm
      · simp only [replaceFirstMenu, if_neg htc, Option.map_eq_some'] at h
        obtain ⟨r, hr, rfl⟩ := h
        obtain ⟨pre, csc', post, hcs, hcs', hpre⟩ := ih hr
        refine ⟨Node.menu tc csc :: pre, csc', post, by simp [hcs], by simp [hcs'], ?_⟩
        simp only [menuTitlesOf_cons_menu, List.mem_cons, not_or]
        exact ⟨Ne.symm htc, hpre⟩
    | action nm cb ic en =>
      simp only [replaceFirstMenu, Option.map_eq_some'] at h
      obtain ⟨r, hr, rfl⟩ := h
      obtain ⟨pre, csc', post, hcs, hcs', hpre⟩ := ih hr
      exact ⟨Node.action nm cb ic en :: pre, csc', post, by simp [hcs],
        by simp [hcs'], by simpa using hpre⟩
    | sep =>
      simp only [replaceFirstMenu, Option.map_eq_some'] at h
      obtain ⟨r, hr, rfl⟩ := h
      obtain ⟨pre, csc', post, hcs, hcs', hpre⟩ := ih hr
      exact ⟨Node.sep :: pre, csc', post, by simp [hcs],
        by simp [hcs'], by simpa using hpre⟩

theorem replaceFirstMenu_eq_none_iff {t : Str} {f : Node → Node} {cs : List Node} :
    replaceFirstMenu t f cs = none ↔ t ∉ menuTitlesOf cs := by
  induction cs with
  | nil => simp [replaceFirstMenu, menuTitlesOf]
  | cons c cs ih =>
    cases c with
    | menu tc csc =>
      by_cases htc : tc = t
      · subst htc
        simp [replaceFirstMenu, menuTitlesOf]
      · simp [replaceFirstMenu, htc, menuTitlesOf, ih, Ne.symm htc]
    | action nm cb ic en => simpa [replaceFirstMenu, menuTitlesOf] using ih
    | sep => simpa [replaceFirstMenu, menuTitlesOf] using ih

@[simp] theorem nodeChildren_menu (t : Str) (cs : List Node) :
    nodeChildren (Node.menu t cs) = cs := rfl

@[simp] theorem actsOf_menu (t : Str) (cs : List Node) :
    actsOf (Node.menu t cs) = cs.filter isActionNode := rfl

theorem navigate_cons_some {n m : Node} {h : Str}
    (hm : findMenu h (nodeChildren n) = some m) (tl : List Str) :
    navigate n (h :: tl) = navigate m tl := by
  simp only [navigate, hm]

theorem navigate_cons_none {n : Node} {h : Str}
    (hm : findMenu h (nodeChildren n) = none) (tl : List Str) :
    navigate n (h :: tl) = none := by
  simp only [navigate, hm]

/-- The action children at the end of a path from `n` (empty when the path
does not exist in the tree). -/
def actsAt (n : Node) (q : List Str) : List Node :=
  match navigate n q with
  | some m => actsOf m
  | none => []

theorem actsAt_nil (n : Node) : actsAt n [] = actsOf n := rfl

theorem actsAt_cons_of_some {n m : Node} {h : Str}
    (hm : findMenu h (nodeChildren n) = some m) (tl : List Str) :
    actsAt n (h :: tl) = actsAt m tl := by
  simp only [actsAt, navigate_cons_some hm]

theorem actsAt_cons_of_none {n : Node} {h : Str}
    (hm : findMenu h (nodeChildren n) = none) (tl : List Str) :
    actsAt n (h :: tl) = [] := by
  simp only [actsAt, navigate_cons_none hm]

theorem actsAt_empty_menu (t : Str) (q : List Str) : actsAt (Node.menu t []) q = [] := by
  cases q with
  | nil => rfl
  | cons h tl => exact actsAt_cons_of_none (by simp [findMenu]) tl

theorem findMenu_append_single_nonmenu {t : Str} {cs : List Node} {x : Node}
    (hx : isMenuNode x = false) : findMenu t (cs ++ [x]) = findMenu t cs := by
  cases hm : findMenu t cs with
  | some m => exact findMenu_append_of_some _ hm
  | none =>
    rw [findMenu_append_of_none _ hm]
    cases x <;> simp_all [findMenu, isMenuNode]

/-- The submenu every `add_nested_action` call returns on a menu node keeps
its title and stays a menu. -/
theorem add_nested_action_menu_shape (p : List Str) (a : Node) (t : Str) (cs : List Node) :
    ∃ cs', add_nested_action p a (Node.menu t cs) = Node.menu t cs' := by
  cases p with
  | nil => exact ⟨cs ++ [a], rfl⟩
  | cons h tl =>
    cases hr : replaceFirstMenu h (fun m => add_nested_action tl a m) cs with
    | some cs' => exact ⟨cs', by simp [add_nested_action, hr]⟩
    | none =>
      exact ⟨cs ++ [add_nested_action tl a (Node.menu h [])], by simp [add_nested_action, hr]⟩

/-- Central lemma on `add_nested_action`: adding one action node `a` at path
`p` appends `a` to the action list at `p` and leaves the action list at
every other path unchanged. -/
theorem actsAt_add_nested_action {a : Node} (ha : isActionNode a = true) :
    ∀ (p : List Str) (n : Node), isMenuNode n = true → ∀ (q : List Str),
      actsAt (add_nested_action p a n) q =
        actsAt n q ++ (if q = p then [a] else []) := by
  intro p
  induction p with
  | nil =>
    intro n hn q
    cases n with
    | action nm cb ic en => simp [isMenuNode] at hn
    | sep => simp [isMenuNode] at hn
    | menu t cs =>
      cases q with
      | nil =>
        simp [add_nested_action, appendChild, actsAt_nil, List.filter_append, ha]
      | cons hq tq =>
        have hfm : findMenu hq (cs ++ [a]) = findMenu hq cs := by
          apply findMenu_append_single_nonmenu
          cases a <;> simp_all [isActionNode, isMenuNode]
        show actsAt (Node.menu t (cs ++ [a])) (hq :: tq) = _
        cases hm : findMenu hq cs with
        | some m =>
          rw [actsAt_cons_of_some (by simpa [hfm] using hm) tq,
            actsAt_cons_of_some (n := Node.menu t cs) (by simpa using hm) tq]
          simp
        | none =>
          rw [actsAt_cons_of_none (by simpa [hfm] using hm) tq,
            actsAt_cons_of_none (n := Node.menu t cs) (by simpa using hm) tq]
          simp
  | cons hp tp ih =>
    intro n hn q
    cases n with
    | action nm cb ic en => simp [isMenuNode] at hn
    | sep => simp [isMenuNode] at hn
    | menu t cs =>
      cases hr : replaceFirstMenu hp (fun m => add_nested_action tp a m) cs with
      | some cs' =>
        obtain ⟨pre, csc, post, hcs, hcs', hpre⟩ := replaceFirstMenu_some_decomp hr
        obtain ⟨csf, hcsf⟩ := add_nested_action_menu_shape tp a hp csc
        subst hcs hcs'
        have hfind_pre : findMenu hp pre = none := findMenu_eq_none_iff.mpr hpre
        have hlhs : add_nested_action (hp :: tp) a
            (Node.menu t (pre ++ Node.menu hp csc :: post)) =
            Node.menu t (pre ++ add_nested_action tp a (Node.menu hp csc) :: post) := by
          simp [add_nested_action, hr]
        rw [hlhs]
        cases q with
        | nil =>
          rw [actsAt_nil, actsAt_nil, hcsf]
          simp [List.filter_append, isActionNode]
        | cons hq tq =>
          cases hfp : findMenu hq pre with
          | some m =>
            have hne : ¬(hq = hp) := by
              intro hEq
              subst hEq
              rw [hfind_pre] at hfp
              exact Option.noConfusion hfp
            rw [actsAt_cons_of_some
                (by simpa using findMenu_append_of_some (add_nested_action tp a
                  (Node.menu hp csc) :: post) hfp) tq,
              actsAt_cons_of_some
                (by simpa using findMenu_append_of_some (Node.menu hp csc :: post) hfp) tq]
            simp [hne]
          | none =>
            by_cases hq_eq : hq = hp
            · subst hq_eq
              have h1 : findMenu hq (pre ++ add_nested_action tp a
                  (Node.menu hq csc) :: post) = some (add_nested_action tp a
                  (Node.menu hq csc)) := by
                rw [findMenu_append_of_none _ hfp, hcsf]
                simp [findMenu]
              have h2 : findMenu hq (pre ++ Node.menu hq csc :: post) =
                  some (Node.menu hq csc) := by
                rw [findMenu_append_of_none _ hfp]
                simp [findMenu]
              rw [actsAt_cons_of_some (by simpa using h1) tq,
                actsAt_cons_of_some (by simpa using h2) tq,
                ih (Node.menu hq csc) (by simp [isMenuNode]) tq]
              simp
            · have hq_eq' : ¬hp = hq := fun h => hq_eq h.symm
              have h1 : findMenu hq (pre ++ add_nested_action tp a
                  (Node.menu hp csc) :: post) = findMenu hq post := by
                rw [findMenu_append_of_none _ hfp, hcsf]
                simp [findMenu, hq_eq']
              have h2 : findMenu hq (pre ++ Node.menu hp csc :: post) =
                  findMenu hq post := by
                rw [findMenu_append_of_none _ hfp]
                simp [findMenu, hq_eq']
              cases hpost : findMenu hq post with
              | some m =>
                rw [actsAt_cons_of_some (by simpa [h1] using hpost) tq,
                  actsAt_cons_of_some (by simpa [h2] using hpost) tq]
                simp [hq_eq]
              | none =>
                rw [actsAt_cons_of_none (by simpa [h1] using hpost) tq,
                  actsAt_cons_of_none (by simpa [h2] using hpost) tq]
                simp [hq_eq]
      | none =>
        have hnotin : hp ∉ menuTitlesOf cs := replaceFirstMenu_eq_none_iff.mp hr
        have hfind_cs : findMenu hp cs = none := findMenu_eq_none_iff.mpr hnotin
        obtain ⟨csf, hcsf⟩ := add_nested_action_menu_shape tp a hp []
        have hlhs : add_nested_action (hp :: tp) a (Node.menu t cs) =
            Node.menu t (cs ++ [add_nested_action tp a (Node.menu hp [])]) := by
          simp [add_nested_action, hr]
        rw [hlhs]
        cases q with
        | nil =>
          rw [actsAt_nil, actsAt_nil, hcsf]
          simp [List.filter_append, isActionNode]
        | cons hq tq =>
          by_cases hq_eq : hq = hp
          · subst hq_eq
            have h1 : findMenu hq (cs ++ [add_nested_action tp a (Node.menu hq [])]) =
                some (add_nested_action tp a (Node.menu hq [])) := by
              rw [findMenu_append_of_none _ hfind_cs, hcsf]
              simp [findMenu]
            rw [actsAt_cons_of_some (by simpa using h1) tq,
              actsAt_cons_of_none (n := Node.menu t cs) (by simpa using hfind_cs) tq,
              ih (Node.menu hq []) (by simp [isMenuNode]) tq, actsAt_empty_menu]
            simp
          · have h1 : findMenu hq (cs ++ [add_nested_action tp a (Node.menu hp [])]) =
                findMenu hq cs := by
              cases hm : findMenu hq cs with
              | some m => exact findMenu_append_of_some _ hm
              | none =>
                have hq_eq' : ¬hp = hq := fun h => hq_eq h.symm
                rw [findMenu_append_of_none _ hm, hcsf]
                simp [findMenu, hq_eq']
            cases hm : findMenu hq cs with
            | some m =>
              rw [actsAt_cons_of_some (by simpa [h1] using hm) tq,
                actsAt_cons_of_some (n := Node.menu t cs) (by simpa using hm) tq]
              simp [hq_eq]
            | none =>
              rw [actsAt_cons_of_none (by simpa [h1] using hm) tq,
                actsAt_cons_of_none (n := Node.menu t cs) (by simpa using hm) tq]
              simp [hq_eq]

theorem isMenuNode_add_nested_action (p : List Str) (a : Node) (n : Node) :
    isMenuNode (add_nested_action p a n) = isMenuNode n := by
  cases n with
  | menu t cs =>
    obtain ⟨cs', h⟩ := add_nested_action_menu_shape p a t cs
    rw [h]
    rfl
  | action nm cb ic en => cases p <;> simp [add_nested_action, appendChild]
  | sep => cases p <;> simp [add_nested_action, appendChild]

/-- `add_nested_action` preserves well-formedness: reusing the first
existing submenu titled with each segment never introduces two sibling
submenus with the same title. -/
theorem Wf_add_nested_action {a : Node} (ha : isActionNode a = true) :
    ∀ (p : List Str) (n : Node), Wf n → Wf (add_nested_action p a n) := by
  intro p
  induction p with
  | nil =>
    intro n hw
    cases n with
    | action nm cb ic en => exact hw
    | sep => exact hw
    | menu t cs =>
      cases hw with
      | menu _ _ hnd hall =>
        refine Wf.menu _ _ ?_ ?_
        · rw [menuTitlesOf_append]
          cases a <;> simp_all [isActionNode, menuTitlesOf]
        · intro c hc
          rcases List.mem_append.mp hc with hc | hc
          · exact hall c hc
          · rcases List.mem_singleton.mp hc with rfl
            cases c with
            | action nm cb ic en => exact Wf.action _ _ _ _
            | sep => exact Wf.sep
            | menu tm csm => simp [isActionNode] at ha
  | cons hp tp ih =>
    intro n hw
    cases n with
    | action nm cb ic en =>
      simpa [add_nested_action] using hw
    | sep =>
      simpa [add_nested_action] using hw
    | menu t cs =>
      cases hw with
      | menu _ _ hnd hall =>
        cases hr : replaceFirstMenu hp (fun m => add_nested_action tp a m) cs with
        | some cs' =>
          obtain ⟨pre, csc, post, hcs, hcs', hpre⟩ := replaceFirstMenu_some_decomp hr
          obtain ⟨csf, hcsf⟩ := add_nested_action_menu_shape tp a hp csc
          have hbuild : add_nested_action (hp :: tp) a (Node.menu t cs) =
              Node.menu t cs' := by simp [add_nested_action, hr]
          rw [hbuild]
          subst hcs hcs'
          refine Wf.menu _ _ ?_ ?_
          · rw [menuTitlesOf_append, hcsf]
            rw [menuTitlesOf_append] at hnd
            simpa using hnd
          · intro c hc
            rcases List.mem_append.mp hc with hc | hc
            · exact hall c (List.mem_append.mpr (Or.inl hc))
            · rcases List.mem_cons.mp hc with rfl | hc
              · exact ih _ (hall _ (List.mem_append.mpr (Or.inr (List.mem_cons_self _ _))))
              · exact hall c (List.mem_append.mpr (Or.inr (List.mem_cons_of_mem _ hc)))
        | none =>
          have hnotin : hp ∉ menuTitlesOf cs := replaceFirstMenu_eq_none_iff.mp hr
          obtain ⟨csf, hcsf⟩ := add_nested_action_menu_shape tp a hp []
          have hbuild : add_nested_action (hp :: tp) a (Node.menu t cs) =
              Node.menu t (cs ++ [add_nested_action tp a (Node.menu hp [])]) := by
            simp [add_nested_action, hr]
          rw [hbuild]
          refine Wf.menu _ _ ?_ ?_
          · rw [menuTitlesOf_append, hcsf]
            simp [List.nodup_append, hnd, hnotin]
          · intro c hc
            rcases List.mem_append.mp hc with hc | hc
            · exact hall c hc
            · rcases List.mem_singleton.mp hc with rfl
              exact ih _ (Wf.menu _ _ (by simp) (by simp))

/-- Paths that existed before an `add_nested_action` call still exist after
it. -/
theorem navigate_isSome_add_nested_action {a : Node} :
    ∀ (p : List Str) (n : Node) (q : List Str),
      (navigate n q).isSome = true →
      (navigate (add_nested_action p a n) q).isSome = true := by
  intro p
  induction p with
  | nil =>
    intro n q hq
    cases n with
    | action nm cb ic en => simpa [add_nested_action, appendChild] using hq
    | sep => simpa [add_nested_action, appendChild] using hq
    | menu t cs =>
      cases q with
      | nil => rfl
      | cons hq' tq =>
        cases hm : findMenu hq' cs with
        | some m =>
          have : findMenu hq' (cs ++ [a]) = some m := findMenu_append_of_some _ hm
          rw [show add_nested_action [] a (Node.menu t cs) = Node.menu t (cs ++ [a]) from rfl,
            navigate_cons_some (by simpa using this) tq]
          rwa [navigate_cons_some (n := Node.menu t cs) (by simpa using hm) tq] at hq
        | none =>
          rw [navigate_cons_none (n := Node.menu t cs) (by simpa using hm) tq] at hq
          simp at hq
  | cons hp tp ih =>
    intro n q hq
    cases n with
    | action nm cb ic en => simpa [add_nested_action] using hq
    | sep => simpa [add_nested_action] using hq
    | menu t cs =>
      cases hr : replaceFirstMenu hp (fun m => add_nested_action tp a m) cs with
      | some cs' =>
        obtain ⟨pre, csc, post, hcs, hcs', hpre⟩ := replaceFirstMenu_some_decomp hr
        obtain ⟨csf, hcsf⟩ := add_nested_action_menu_shape tp a hp csc
        have hbuild : add_nested_action (hp :: tp) a (Node.menu t cs) =
            Node.menu t cs' := by simp [add_nested_action, hr]
        rw [hbuild]
        subst hcs hcs'
        have hfind_pre : findMenu hp pre = none := findMenu_eq_none_iff.mpr hpre
        cases q with
        | nil => rfl
        | cons hq' tq =>
          cases hfp : findMenu hq' pre with
          | some m =>
            rw [navigate_cons_some
              (by simpa using findMenu_append_of_some (add_nested_action tp a
                (Node.menu hp csc) :: post) hfp) tq]
            rwa [navigate_cons_some
              (n := Node.menu t (pre ++ Node.menu hp csc :: post))
              (by simpa using findMenu_append_of_some (Node.menu hp csc :: post) hfp) tq] at hq
          | none =>
            by_cases hq_eq : hq' = hp
            · subst hq_eq
              have h1 : findMenu hq' (pre ++ add_nested_action tp a
                  (Node.menu hq' csc) :: post) = some (add_nested_action tp a
                  (Node.menu hq' csc)) := by
                rw [findMenu_append_of_none _ hfp, hcsf]
                simp [findMenu]
              have h2 : findMenu hq' (pre ++ Node.menu hq' csc :: post) =
                  some (Node.menu hq' csc) := by
                rw [findMenu_append_of_none _ hfp]
                simp [findMenu]
              rw [navigate_cons_some (by simpa using h1) tq]
              rw [navigate_cons_some
                (n := Node.menu t (pre ++ Node.menu hq' csc :: post))
                (by simpa using h2) tq] at hq
              exact ih _ _ hq
            · have hq_eq' : ¬hp = hq' := fun h => hq_eq h.symm
              have h1 : findMenu hq' (pre ++ add_nested_action tp a
                  (Node.menu hp csc) :: post) = findMenu hq' post := by
                rw [findMenu_append_of_none _ hfp, hcsf]
                simp [findMenu, hq_eq']
              have h2 : findMenu hq' (pre ++ Node.menu hp csc :: post) =
                  findMenu hq' post := by
                rw [findMenu_append_of_none _ hfp]
                simp [findMenu, hq_eq']
              cases hpost : findMenu hq' post with
              | some m =>
                rw [navigate_cons_some (by simpa [h1] using hpost) tq]
                rwa [navigate_cons_some
                  (n := Node.menu t (pre ++ Node.menu hp csc :: post))
                  (by simpa [h2] using hpost) tq] at hq
              | none =>
                rw [navigate_cons_none
                  (n := Node.menu t (pre ++ Node.menu hp csc :: post))
                  (by simpa [h2] using hpost) tq] at hq
                simp at hq
      | none =>
        have hfind_cs : findMenu hp cs = none :=
          findMenu_eq_none_iff.mpr (replaceFirstMenu_eq_none_iff.mp hr)
        obtain ⟨csf, hcsf⟩ := add_nested_action_menu_shape tp a hp []
        have hbuild : add_nested_action (hp :: tp) a (Node.menu t cs) =
            Node.menu t (cs ++ [add_nested_action tp a (Node.menu hp [])]) := by
          simp [add_nested_action, hr]
        rw [hbuild]
        cases q with
        | nil => rfl
        | cons hq' tq =>
          by_cases hq_eq : hq' = hp
          · subst hq_eq
            rw [navigate_cons_none (n := Node.menu t cs) (by simpa using hfind_cs) tq] at hq
            simp at hq
          · have hq_eq' : ¬hp = hq' := fun h => hq_eq h.symm
            have h1 : findMenu hq' (cs ++ [add_nested_action tp a (Node.menu hp [])]) =
                findMenu hq' cs := by
              cases hm : findMenu hq' cs with
              | some m => exact findMenu_append_of_some _ hm
              | none =>
                rw [findMenu_append_of_none _ hm, hcsf]
                simp [findMenu, hq_eq']
            cases hm : findMenu hq' cs with
            | some m =>
              rw [navigate_cons_some (by simpa [h1] using hm) tq]
              rwa [navigate_cons_some (n := Node.menu t cs) (by simpa using hm) tq] at hq
            | none =>
              rw [navigate_cons_none (n := Node.menu t cs) (by simpa using hm) tq] at hq
              simp at hq

/-- `add_nested_action` creates (or reuses) every node along its own path:
afterwards the full path exists. -/
theorem navigate_isSome_self_add_nested_action {a : Node} :
    ∀ (p : List Str) (n : Node), isMenuNode n = true →
      (navigate (add_nested_action p a n) p).isSome = true := by
  intro p
  induction p with
  | nil => intro n _; rfl
  | cons hp tp ih =>
    intro n hn
    cases n with
    | action nm cb ic en => simp [isMenuNode] at hn
    | sep => simp [isMenuNode] at hn
    | menu t cs =>
      cases hr : replaceFirstMenu hp (fun m => add_nested_action tp a m) cs with
      | some cs' =>
        obtain ⟨pre, csc, post, hcs, hcs', hpre⟩ := replaceFirstMenu_some_decomp hr
        obtain ⟨csf, hcsf⟩ := add_nested_action_menu_shape tp a hp csc
        have hbuild : add_nested_action (hp :: tp) a (Node.menu t cs) =
            Node.menu t cs' := by simp [add_nested_action, hr]
        rw [hbuild]
        subst hcs hcs'
        have hfind_pre : findMenu hp pre = none := findMenu_eq_none_iff.mpr hpre
        have h1 : findMenu hp (pre ++ add_nested_action tp a
            (Node.menu hp csc) :: post) = some (add_nested_action tp a
            (Node.menu hp csc)) := by
          rw [findMenu_append_of_none _ hfind_pre, hcsf]
          simp [findMenu]
        rw [navigate_cons_some (by simpa using h1) tp]
        have : (navigate (add_nested_action tp a (Node.menu hp csc)) tp).isSome = true :=
          ih _ (by simp [isMenuNode])
        simpa [actsAt] using this
      | none =>
        have hfind_cs : findMenu hp cs = none :=
          findMenu_eq_none_iff.mpr (replaceFirstMenu_eq_none_iff.mp hr)
        obtain ⟨csf, hcsf⟩ := add_nested_action_menu_shape tp a hp []
        have hbuild : add_nested_action (hp :: tp) a (Node.menu t cs) =
            Node.menu t (cs ++ [add_nested_action tp a (Node.menu hp [])]) := by
          simp [add_nested_action, hr]
        rw [hbuild]
        have h1 : findMenu hp (cs ++ [add_nested_action tp a (Node.menu hp [])]) =
            some (add_nested_action tp a (Node.menu hp [])) := by
          rw [findMenu_append_of_none _ hfind_cs, hcsf]
          simp [findMenu]
        rw [navigate_cons_some (by simpa using h1) tp]
        exact ih _ (by simp [isMenuNode])

/-! ### Association-list lemmas -/

/-- Concatenation of the images of a list-valued function, in order. -/
def concatMap {α β : Type} (f : α → List β) : List α → List β
  | [] => []
  | x :: xs => f x ++ concatMap f xs

theorem concatMap_eq_nil {α β : Type} {f : α → List β} :
    ∀ {l : List α}, (∀ x ∈ l, f x = []) → concatMap f l = [] := by
  intro l
  induction l with
  | nil => intro _; rfl
  | cons x xs ih =>
    intro h
    simp only [concatMap, h x (List.mem_cons_self x xs)]
    simpa using ih fun y hy => h y (List.mem_cons_of_mem _ hy)

theorem assocLookup_assocAppend {β : Type} (k : Str) (v : β) (T : Str) :
    ∀ (gs : List (Str × List β)),
      assocLookup T (assocAppend k v gs) =
        if k = T then
          match assocLookup T gs with
          | some l => some (l ++ [v])
          | none => some [v]
        else assocLookup T gs := by
  intro gs
  induction gs with
  | nil =>
    by_cases h : k = T <;> simp [assocAppend, assocLookup, h]
  | cons kv gs ih =>
    obtain ⟨k', l⟩ := kv
    by_cases hk : k' = k
    · subst hk
      by_cases hT : k' = T <;> simp [assocAppend, assocLookup, hT]
    · by_cases hT : k' = T
      · subst hT
        have : ¬k = k' := fun h => hk h.symm
        simp [assocAppend, assocLookup, hk, this]
      · simp [assocAppend, assocLookup, hk, hT, ih]

@[simp] theorem assocKeys_nil {β : Type} : assocKeys ([] : List (Str × β)) = [] := rfl

@[simp] theorem assocKeys_cons {β : Type} (k : Str) (v : β) (gs : List (Str × β)) :
    assocKeys ((k, v) :: gs) = k :: assocKeys gs := rfl

theorem assocKeys_assocAppend {β : Type} (k : Str) (v : β) :
    ∀ (gs : List (Str × List β)),
      assocKeys (assocAppend k v gs) =
        if k ∈ assocKeys gs then assocKeys gs else assocKeys gs ++ [k] := by
  intro gs
  induction gs with
  | nil => simp [assocAppend]
  | cons kv gs ih =>
    obtain ⟨k', l⟩ := kv
    by_cases hk : k' = k
    · subst hk
      simp [assocAppend]
    · have hk' : ¬k = k' := fun h => hk h.symm
      by_cases hmem : k ∈ assocKeys gs <;>
        simp [assocAppend, hk, hmem, hk', ih]

theorem assocKeys_nodup_assocAppend {β : Type} (k : Str) (v : β)
    {gs : List (Str × List β)} (h : (assocKeys gs).Nodup) :
    (assocKeys (assocAppend k v gs)).Nodup := by
  rw [assocKeys_assocAppend]
  by_cases hmem : k ∈ assocKeys gs
  · simpa [hmem] using h
  · simp [hmem, List.nodup_append, h, hmem]

/-- Generic fold of `assocAppend` steps keeps the keys duplicate-free. -/
theorem assocKeys_foldl_nodup {α β : Type} (kf : α → Str) (vf : α → β) :
    ∀ (l : List α) (acc : List (Str × List β)), (assocKeys acc).Nodup →
      (assocKeys (l.foldl (fun gs x => assocAppend (kf x) (vf x) gs) acc)).Nodup := by
  intro l
  induction l with
  | nil => intro acc h; exact h
  | cons x xs ih =>
    intro acc h
    exact ih _ (assocKeys_nodup_assocAppend _ _ h)

theorem assocAppend_values_ne_nil {β : Type} {k : Str} {v : β} :
    ∀ {gs : List (Str × List β)}, (∀ kv ∈ gs, kv.2 ≠ []) →
      ∀ kv ∈ assocAppend k v gs, kv.2 ≠ [] := by
  intro gs
  induction gs with
  | nil =>
    intro _ kv hkv
    simp only [assocAppend, List.mem_singleton] at hkv
    subst hkv
    simp
  | cons kv₀ gs ih =>
    intro h kv hkv
    obtain ⟨k', l⟩ := kv₀
    by_cases hk : k' = k
    · subst hk
      rw [show assocAppend k' v ((k', l) :: gs) = (k', l ++ [v]) :: gs from by
        simp [assocAppend]] at hkv
      rcases List.mem_cons.mp hkv with h1 | h1
      · rw [h1]; simp
      · exact h kv (List.mem_cons_of_mem _ h1)
    · rw [show assocAppend k v ((k', l) :: gs) = (k', l) :: assocAppend k v gs from by
        simp [assocAppend, hk]] at hkv
      rcases List.mem_cons.mp hkv with h1 | h1
      · rw [h1]
        exact h _ (List.mem_cons_self _ _)
      · exact ih (fun kv' hkv' => h kv' (List.mem_cons_of_mem _ hkv')) kv h1

theorem assocLookup_isSome_iff_mem_keys {β : Type} (k : Str) :
    ∀ (gs : List (Str × β)), (assocLookup k gs).isSome = true ↔ k ∈ assocKeys gs := by
  intro gs
  induction gs with
  | nil => simp [assocLookup]
  | cons kv gs ih =>
    obtain ⟨k', v⟩ := kv
    by_cases hk : k' = k
    · subst hk
      simp [assocLookup]
    · have hk' : ¬k = k' := fun h => hk h.symm
      simp [assocLookup, hk, hk', ih]

theorem assocLookup_mem {β : Type} {k : Str} {v : β} :
    ∀ {gs : List (Str × β)}, assocLookup k gs = some v → (k, v) ∈ gs := by
  intro gs
  induction gs with
  | nil => intro h; simp [assocLookup] at h
  | cons kv gs ih =>
    intro h
    obtain ⟨k', v'⟩ := kv
    by_cases hk : k' = k
    · subst hk
      simp only [assocLookup, if_true, eq_self_iff_true, Option.some.injEq] at h
      subst h
      exact List.mem_cons_self _ _
    · simp only [assocLookup, if_neg hk] at h
      exact List.mem_cons_of_mem _ (ih h)

/-! ### The registry and its grouping -/

/-- `register_addon_tool` keys form a dict: no duplicates. -/
theorem regState_keys_nodup (calls : List RegCall) :
    (assocKeys (regState calls)).Nodup :=
  assocKeys_foldl_nodup _ _ calls [] (by simp [assocKeys])

/-- Every registered submenu key holds at least one entry. -/
theorem regState_values_ne_nil (calls : List RegCall) :
    ∀ kv ∈ regState calls, kv.2 ≠ [] := by
  suffices h : ∀ (l : List RegCall) (acc : Registry), (∀ kv ∈ acc, kv.2 ≠ []) →
      ∀ kv ∈ l.foldl
        (fun reg c => register_addon_tool reg c.name c.cb c.submenu_name c.icon c.enabled)
        acc, kv.2 ≠ [] by
    exact h calls [] (by simp)
  intro l
  induction l with
  | nil => intro acc h; exact h
  | cons c cs ih =>
    intro acc h
    exact ih _ (assocAppend_values_ne_nil h)

/-- The registry items grouped under top-level title `T` (the value list of
`menu_groups` at `T`), as a filter of the registry. -/
def groupOf (title : Str) (reg : Registry) (T : Str) : List (Str × List Entry) :=
  reg.filter (fun kv => topKey title kv.1 = T)

theorem groupOf_cons (title : Str) (kv : Str × List Entry) (l : Registry) (T : Str) :
    groupOf title (kv :: l) T =
      if topKey title kv.1 = T then kv :: groupOf title l T else groupOf title l T := by
  by_cases hT : topKey title kv.1 = T <;> simp [groupOf, List.filter_cons, hT]

theorem groupOf_nil (title : Str) (T : Str) : groupOf title [] T = [] := rfl

theorem assocLookup_mkGroups_aux (title : Str) :
    ∀ (l : Registry) (acc : List (Str × List (Str × List Entry))) (T : Str),
      assocLookup T (l.foldl (fun gs kv => assocAppend (topKey title kv.1) kv gs) acc) =
        match assocLookup T acc with
        | some v => some (v ++ groupOf title l T)
        | none => if groupOf title l T = [] then none else some (groupOf title l T) := by
  intro l
  induction l with
  | nil =>
    intro acc T
    cases h : assocLookup T acc <;> simp [groupOf, h]
  | cons kv l ih =>
    intro acc T
    rw [List.foldl_cons, ih]
    rw [assocLookup_assocAppend]
    by_cases hT : topKey title kv.1 = T
    · rw [if_pos hT]
      cases h : assocLookup T acc with
      | some v => simp [groupOf_cons, hT, h]
      | none => simp [groupOf_cons, hT, h]
    · rw [if_neg hT]
      cases h : assocLookup T acc with
      | some v => simp [groupOf_cons, hT, h]
      | none => simp [groupOf_cons, hT, h]

theorem assocLookup_mkGroups (title : Str) (reg : Registry) (T : Str) :
    assocLookup T (mkGroups title reg) =
      if groupOf title reg T = [] then none else some (groupOf title reg T) := by
  have := assocLookup_mkGroups_aux title reg [] T
  simpa [mkGroups, assocLookup] using this

/-! ### Folding registered entries into a top-level menu -/

theorem isActionNode_mkAction (d : Str) (e : Entry) : isActionNode (mkAction d e) = true := rfl

theorem isMenuNode_fold_entries (d : Str) (path : List Str) :
    ∀ (es : List Entry) (n : Node),
      isMenuNode (es.foldl (fun m' e => add_nested_action path (mkAction d e) m') n) =
        isMenuNode n := by
  intro es
  induction es with
  | nil => intro n; rfl
  | cons e es ih =>
    intro n
    rw [List.foldl_cons, ih, isMenuNode_add_nested_action]

theorem actsAt_fold_entries (d : Str) (path : List Str) :
    ∀ (es : List Entry) (n : Node), isMenuNode n = true → ∀ (q : List Str),
      actsAt (es.foldl (fun m' e => add_nested_action path (mkAction d e) m') n) q =
        actsAt n q ++ (if q = path then es.map (mkAction d) else []) := by
  intro es
  induction es with
  | nil =>
    intro n _ q
    by_cases hq : q = path <;> simp [hq]
  | cons e es ih =>
    intro n hn q
    rw [List.foldl_cons,
      ih _ (by rw [isMenuNode_add_nested_action]; exact hn) q,
      actsAt_add_nested_action (isActionNode_mkAction d e) path n hn q]
    by_cases hq : q = path <;> simp [hq]

theorem isMenuNode_fold_group (d : Str) :
    ∀ (g : List (Str × List Entry)) (n : Node),
      isMenuNode (g.foldl (fun m pv => pv.2.foldl
        (fun m' e => add_nested_action (restKey pv.1) (mkAction d e) m') m) n) =
        isMenuNode n := by
  intro g
  induction g with
  | nil => intro n; rfl
  | cons pv g ih =>
    intro n
    rw [List.foldl_cons, ih, isMenuNode_fold_entries]

theorem actsAt_fold_group (d : Str) :
    ∀ (g : List (Str × List Entry)) (n : Node), isMenuNode n = true → ∀ (q : List Str),
      actsAt (g.foldl (fun m pv => pv.2.foldl
        (fun m' e => add_nested_action (restKey pv.1) (mkAction d e) m') m) n) q =
        actsAt n q ++
          concatMap (fun pv => if q = restKey pv.1 then pv.2.map (mkAction d) else []) g := by
  intro g
  induction g with
  | nil =>
    intro n _ q
    simp [concatMap]
  | cons pv g ih =>
    intro n hn q
    rw [List.foldl_cons,
      ih _ (by rw [isMenuNode_fold_entries]; exact hn) q,
      actsAt_fold_entries d (restKey pv.1) pv.2 n hn q]
    simp [concatMap, List.append_assoc]

theorem Wf_fold_entries (d : Str) (path : List Str) :
    ∀ (es : List Entry) (n : Node), Wf n →
      Wf (es.foldl (fun m' e => add_nested_action path (mkAction d e) m') n) := by
  intro es
  induction es with
  | nil => intro n h; exact h
  | cons e es ih =>
    intro n h
    exact ih _ (Wf_add_nested_action (isActionNode_mkAction d e) path n h)

theorem Wf_fold_group (d : Str) :
    ∀ (g : List (Str × List Entry)) (n : Node), Wf n →
      Wf (g.foldl (fun m pv => pv.2.foldl
        (fun m' e => add_nested_action (restKey pv.1) (mkAction d e) m') m) n) := by
  intro g
  induction g with
  | nil => intro n h; exact h
  | cons pv g ih =>
    intro n h
    exact ih _ (Wf_fold_entries d (restKey pv.1) pv.2 n h)

theorem navigate_isSome_fold_entries (d : Str) (path : List Str) :
    ∀ (es : List Entry) (n : Node) (q : List Str), (navigate n q).isSome = true →
      (navigate (es.foldl (fun m' e => add_nested_action path (mkAction d e) m') n) q).isSome
        = true := by
  intro es
  induction es with
  | nil => intro n q h; exact h
  | cons e es ih =>
    intro n q h
    exact ih _ _ (navigate_isSome_add_nested_action path n q h)

theorem navigate_isSome_fold_entries_self (d : Str) (path : List Str) :
    ∀ (es : List Entry) (n : Node), isMenuNode n = true → es ≠ [] →
      (navigate (es.foldl (fun m' e => add_nested_action path (mkAction d e) m') n)
        path).isSome = true := by
  intro es
  cases es with
  | nil => intro n _ h; exact absurd rfl h
  | cons e es =>
    intro n hn _
    rw [List.foldl_cons]
    exact navigate_isSome_fold_entries d path es _ path
      (navigate_isSome_self_add_nested_action path n hn)

theorem navigate_isSome_fold_group (d : Str) :
    ∀ (g : List (Str × List Entry)) (n : Node) (q : List Str), (navigate n q).isSome = true →
      (navigate (g.foldl (fun m pv => pv.2.foldl
        (fun m' e => add_nested_action (restKey pv.1) (mkAction d e) m') m) n) q).isSome
        = true := by
  intro g
  induction g with
  | nil => intro n q h; exact h
  | cons pv g ih =>
    intro n q h
    exact ih _ _ (navigate_isSome_fold_entries d (restKey pv.1) pv.2 n q h)

theorem navigate_isSome_fold_group_self (d : Str) :
    ∀ (g : List (Str × List Entry)) (n : Node), isMenuNode n = true →
      ∀ pv ∈ g, pv.2 ≠ [] →
      (navigate (g.foldl (fun m pv => pv.2.foldl
        (fun m' e => add_nested_action (restKey pv.1) (mkAction d e) m') m) n)
        (restKey pv.1)).isSome = true := by
  intro g
  induction g with
  | nil => intro n _ pv hpv; simp at hpv
  | cons pv₀ g ih =>
    intro n hn pv hpv hne
    rcases List.mem_cons.mp hpv with rfl | hpv
    · rw [List.foldl_cons]
      exact navigate_isSome_fold_group d g _ _
        (navigate_isSome_fold_entries_self d (restKey pv.1) pv.2 n hn hne)
    · rw [List.foldl_cons]
      exact ih _ (by rw [isMenuNode_fold_entries]; exact hn) pv hpv hne

/-- The top-level menu built for a group keeps its configured title. -/
theorem buildTop_shape (d : Str) (tg : Str × List (Str × List Entry)) :
    ∃ cs, buildTop d tg = Node.menu tg.1 cs := by
  obtain ⟨T, g⟩ := tg
  suffices h : ∀ (g : List (Str × List Entry)) (cs₀ : List Node),
      ∃ cs, g.foldl (fun m pv => pv.2.foldl
        (fun m' e => add_nested_action (restKey pv.1) (mkAction d e) m') m)
        (Node.menu T cs₀) = Node.menu T cs by
    simpa [buildTop] using h g []
  intro g
  induction g with
  | nil => intro cs₀; exact ⟨cs₀, rfl⟩
  | cons pv g ih =>
    intro cs₀
    rw [List.foldl_cons]
    suffices h : ∀ (es : List Entry) (cs₀ : List Node),
        ∃ cs, es.foldl (fun m' e => add_nested_action (restKey pv.1) (mkAction d e) m')
          (Node.menu T cs₀) = Node.menu T cs by
      obtain ⟨cs₁, hcs₁⟩ := h pv.2 cs₀
      rw [hcs₁]
      exact ih cs₁
    intro es
    induction es with
    | nil => intro cs₀'; exact ⟨cs₀', rfl⟩
    | cons e es ihe =>
      intro cs₀'
      rw [List.foldl_cons]
      obtain ⟨cs₁, hcs₁⟩ := add_nested_action_menu_shape (restKey pv.1) (mkAction d e) T cs₀'
      rw [hcs₁]
      exact ihe cs₁

theorem findMenu_map_buildTop (d : Str) :
    ∀ (groups : List (Str × List (Str × List Entry))) (T : Str),
      findMenu T (groups.map (buildTop d)) =
        match assocLookup T groups with
        | some g => some (buildTop d (T, g))
        | none => none := by
  intro groups
  induction groups with
  | nil => intro T; rfl
  | cons tg gs ih =>
    intro T
    obtain ⟨k, g⟩ := tg
    obtain ⟨cs, hcs⟩ := buildTop_shape d (k, g)
    by_cases hk : k = T
    · subst hk
      rw [List.map_cons, hcs]
      simp only [findMenu, if_true, eq_self_iff_true, assocLookup]
      rw [← hcs]
    · rw [List.map_cons, hcs]
      simp only [findMenu, if_neg hk, assocLookup]
      exact ih T

/-- Characterization of the actions rendered at any leaf coordinate of the
rebuilt menus: the concatenation, over the group items whose key denotes
that coordinate, of their entries in registration order. -/
theorem actsAtTop_refresh_menu (d title : Str) (reg : Registry) (T : Str) (segs : List Str) :
    actsAtTop (refresh_menu d title reg) (T, segs) =
      concatMap (fun pv => if segs = restKey pv.1 then pv.2.map (mkAction d) else [])
        (groupOf title reg T) := by
  unfold actsAtTop navigateTop refresh_menu
  rw [findMenu_map_buildTop, assocLookup_mkGroups]
  by_cases hg : groupOf title reg T = []
  · rw [if_pos hg, hg]
    rfl
  · rw [if_neg hg]
    show actsAt (buildTop d (T, groupOf title reg T)) segs = _
    unfold buildTop
    rw [actsAt_fold_group d _ _ (by rfl) segs, actsAt_empty_menu]
    rfl

theorem mem_assocKeys_of_mem {β : Type} {kv : Str × β} {gs : List (Str × β)}
    (h : kv ∈ gs) : kv.1 ∈ assocKeys gs :=
  List.mem_map_of_mem Prod.fst h

theorem refresh_menu_titles (d title : Str) (reg : Registry) :
    (refresh_menu d title reg).map menuTitle = assocKeys (mkGroups title reg) := by
  unfold refresh_menu
  induction mkGroups title reg with
  | nil => rfl
  | cons tg gs ih =>
    obtain ⟨k, g⟩ := tg
    obtain ⟨cs, hcs⟩ := buildTop_shape d (k, g)
    rw [List.map_cons, List.map_cons, hcs]
    simp only [menuTitle, assocKeys_cons]
    rw [ih]

/-- C1 — for every sequence of `register_addon_tool` calls, the rebuilt menu
forest has exactly one menu node per registered path prefix: the top-level
menus carry pairwise distinct titles, inside every menu no two submenu
children share a title (`Wf`), and for every registered submenu key the full
chain of nodes it denotes exists, so a re-registration under an existing
segment sequence reuses those nodes instead of duplicating them. -/
theorem refresh_menu_unique_nodes (d title : Str) (calls : List RegCall) :
    ((refresh_menu d title (regState calls)).map menuTitle).Nodup ∧
    (∀ tree ∈ refresh_menu d title (regState calls), Wf tree) ∧
    (∀ p ∈ assocKeys (regState calls),
      (navigateTop (refresh_menu d title (regState calls)) (coords title p)).isSome
        = true) := by
  refine ⟨?_, ?_, ?_⟩
  · rw [refresh_menu_titles]
    exact assocKeys_foldl_nodup _ _ (regState calls) [] (by simp)
  · intro tree htree
    unfold refresh_menu at htree
    obtain ⟨tg, _, rfl⟩ := List.mem_map.mp htree
    obtain ⟨T, g⟩ := tg
    unfold buildTop
    exact Wf_fold_group d g _ (Wf.menu _ _ (by simp) (by simp))
  · intro p hp
    obtain ⟨es, hes⟩ := Option.isSome_iff_exists.mp
      ((assocLookup_isSome_iff_mem_keys p (regState calls)).mpr hp)
    have hmem : (p, es) ∈ regState calls := assocLookup_mem hes
    have hne : es ≠ [] := regState_values_ne_nil calls (p, es) hmem
    have hgrp : (p, es) ∈ groupOf title (regState calls) (topKey title p) :=
      List.mem_filter.mpr ⟨hmem, by simp⟩
    have hgrp_ne : groupOf title (regState calls) (topKey title p) ≠ [] :=
      List.ne_nil_of_mem hgrp
    show (navigateTop (refresh_menu d title (regState calls))
      (topKey title p, restKey p)).isSome = true
    unfold navigateTop refresh_menu
    rw [findMenu_map_buildTop, assocLookup_mkGroups, if_neg hgrp_ne]
    show (navigate (buildTop d (topKey title p,
      groupOf title (regState calls) (topKey title p))) (restKey p)).isSome = true
    unfold buildTop
    exact navigate_isSome_fold_group_self d _ _ (by rfl) (p, es) hgrp hne

/-- Concrete instantiation of `refresh_menu_unique_nodes`: a single
registration under the nested path `A::B`. -/
theorem refresh_menu_unique_nodes_witness :
    ((refresh_menu (strL "/d") (strL "T")
        (regState [⟨strL "X", 1, strL "A::B", none, true⟩])).map menuTitle).Nodup ∧
    strL "A::B" ∈ assocKeys (regState [⟨strL "X", 1, strL "A::B", none, true⟩]) ∧
    (navigateTop (refresh_menu (strL "/d") (strL "T")
        (regState [⟨strL "X", 1, strL "A::B", none, true⟩]))
      (coords (strL "T") (strL "A::B"))).isSome = true :=
  ⟨(refresh_menu_unique_nodes (strL "/d") (strL "T") _).1, by decide,
   (refresh_menu_unique_nodes (strL "/d") (strL "T") _).2.2 _ (by decide)⟩

theorem concatMap_groupOf_unique (d title : Str) (p : Str) (es : List Entry) :
    ∀ (reg : Registry), (assocKeys reg).Nodup →
      assocLookup p reg = some es →
      (∀ q ∈ assocKeys reg, q ≠ p → coords title q ≠ coords title p) →
      concatMap (fun pv => if restKey p = restKey pv.1 then pv.2.map (mkAction d) else [])
        (groupOf title reg (topKey title p)) = es.map (mkAction d) := by
  intro reg
  induction reg with
  | nil =>
    intro _ h _
    simp [assocLookup] at h
  | cons kv reg ih =>
    obtain ⟨k, l⟩ := kv
    intro hnd hlk huq
    by_cases hk : k = p
    · subst hk
      have hes : l = es := by
        simpa [assocLookup] using hlk
      subst hes
      rw [groupOf_cons, if_pos rfl]
      simp only [concatMap, if_pos rfl]
      have hzero : concatMap
          (fun pv => if restKey k = restKey pv.1 then pv.2.map (mkAction d) else [])
          (groupOf title reg (topKey title k)) = [] := by
        apply concatMap_eq_nil
        intro pv hpv
        obtain ⟨hpvmem, hpvtop⟩ := List.mem_filter.mp hpv
        have hkeymem : pv.1 ∈ assocKeys reg := mem_assocKeys_of_mem hpvmem
        have hne : pv.1 ≠ k := by
          intro hEq
          rw [hEq] at hkeymem
          exact (List.nodup_cons.mp (by simpa using hnd)).1 hkeymem
        have hcoord := huq pv.1 (List.mem_cons_of_mem _ hkeymem) hne
        have htop : topKey title pv.1 = topKey title k := of_decide_eq_true hpvtop
        have hrest : restKey k ≠ restKey pv.1 := by
          intro hr
          exact hcoord (by simp [coords, htop, hr])
        rw [if_neg hrest]
      rw [hzero]
      simp
    · have hlk' : assocLookup p reg = some es := by
        simpa [assocLookup, hk] using hlk
      have hnd' : (assocKeys reg).Nodup := (List.nodup_cons.mp (by simpa using hnd)).2
      have huq' : ∀ q ∈ assocKeys reg, q ≠ p → coords title q ≠ coords title p :=
        fun q hq => huq q (List.mem_cons_of_mem _ hq)
      rw [groupOf_cons]
      by_cases hT : topKey title k = topKey title p
      · rw [if_pos hT]
        simp only [concatMap]
        have hcoord := huq k (List.mem_cons_self _ _) hk
        have hrest : restKey p ≠ restKey k := by
          intro hr
          exact hcoord (by simp [coords, hT, hr])
        rw [if_neg hrest]
        simpa using ih hnd' hlk' huq'
      · rw [if_neg hT]
        exact ih hnd' hlk' huq'

/-- C2 (amended) — for every sequence of `register_addon_tool` calls and
every registered `(path, entries)` pair whose leaf coordinates are not also
denoted by a different registered path (the empty path and a path equal to
the configured top-level title denote the same leaf, so such a collision is
excluded by hypothesis), the leaf menu for the path holds exactly the
rendered actions of the registered entries, in registration order — in
particular two entries with identical names both appear, with no
deduplication. -/
theorem refresh_menu_leaf_actions (d title : Str) (calls : List RegCall) (p : Str)
    (es : List Entry) (hp : assocLookup p (regState calls) = some es)
    (huniq : ∀ q ∈ assocKeys (regState calls), q ≠ p →
      coords title q ≠ coords title p) :
    actsAtTop (refresh_menu d title (regState calls)) (coords title p) =
      es.map (mkAction d) := by
  show actsAtTop (refresh_menu d title (regState calls)) (topKey title p, restKey p) = _
  rw [actsAtTop_refresh_menu]
  exact concatMap_groupOf_unique d title p es (regState calls)
    (regState_keys_nodup calls) hp huniq

/-- Concrete instantiation of `refresh_menu_leaf_actions`: two entries
(one of them a name duplicate) registered under one path both render, in
order. -/
theorem refresh_menu_leaf_actions_witness :
    assocLookup (strL "A")
        (regState [⟨strL "X", 1, strL "A", none, true⟩,
          ⟨strL "X", 2, strL "A", none, true⟩]) =
      some [⟨strL "X", 1, none, true⟩, ⟨strL "X", 2, none, true⟩] ∧
    actsAtTop (refresh_menu (strL "/d") (strL "T")
        (regState [⟨strL "X", 1, strL "A", none, true⟩,
          ⟨strL "X", 2, strL "A", none, true⟩]))
      (coords (strL "T") (strL "A")) =
      ([⟨strL "X", 1, none, true⟩, ⟨strL "X", 2, none, true⟩] : List Entry).map
        (mkAction (strL "/d")) :=
  ⟨by decide,
   refresh_menu_leaf_actions (strL "/d") (strL "T") _ (strL "A") _ (by decide)
     (by decide)⟩

/-- Counterexample to C2 as stated: with toolbar title `T`, registering one
entry under the empty path and one under the path `"T"` makes both land in
the same leaf (the top-level menu itself), so the leaf for the empty path
holds two actions although only one entry is registered under it — the
claimed "exactly one actionable item per entry of the pair" fails. -/
theorem refresh_menu_leaf_actions_cex :
    (actsAtTop (refresh_menu (strL "/d") (strL "T")
        (regState [⟨strL "X", 1, [], none, true⟩, ⟨strL "Y", 2, strL "T", none, true⟩]))
      (coords (strL "T") [])).length = 2 ∧
    ((assocLookup []
        (regState [⟨strL "X", 1, [], none, true⟩,
          ⟨strL "Y", 2, strL "T", none, true⟩])).getD []).length = 1 := by
  exact ⟨by decide, by decide⟩

/-! ### Dynamic typing of icon values and exception behaviour of the rebuild

`register_addon_tool` accepts arbitrary Python values; `_refresh_menu`
contains no `try`/`except`, so any exception raised while reconstructing the
menus propagates to its caller.  The only fallible operation on our
modelled data is icon resolution: `resolve_icon_path` applies
`os.path.isabs` to the stored icon value, which raises `TypeError` for a
truthy non-string (e.g. an `int`).  `PyVal` models the possible icon field
values, and the `_exc` variants of the rebuild return `Except`: an `error`
result is a raised exception that aborts the whole rebuild. -/
inductive PyVal where
  | none
  | str (s : Str)
  | intV (n : Int)
deriving DecidableEq

/-- Python truthiness of a dynamic icon value. -/
def pyTruthy : PyVal → Bool
  | .none => false
  | .str s => !s.isEmpty
  | .intV n => n != 0

/-- A registered entry whose icon field keeps its dynamic Python type. -/
structure DEntry where
  name : Str
  cb : Nat
  icon : PyVal
  enabled : Bool
deriving DecidableEq

/-- `addon_actions` with dynamically typed icon values. -/
abbrev DRegistry := List (Str × List DEntry)

/-- The one exception kind our modelled data can raise. -/
inductive PyErr where
  | typeError
deriving DecidableEq

/-- `if icon: action.setIcon(QIcon(resolve_icon_path(icon)))` (src/utils.py
lines 87-88) on a dynamic icon value: a falsy icon attaches nothing, a
truthy string resolves normally, and a truthy non-string raises `TypeError`
inside `os.path.isabs`. -/
def rendered_icon_dyn (d : Str) : PyVal → Except PyErr (Option Str)
  | .none => .ok none
  | .str s => if s.isEmpty then .ok none else .ok (some (resolve_icon_path d s))
  | .intV n => if n = 0 then .ok none else .error .typeError

/-- The icon an entry carries once dynamic typing is forgotten. -/
def detype_icon : PyVal → Option Str
  | .str s => some s
  | _ => none

/-- Forget the dynamic typing of an entry (non-string icons are falsy for
well-typed registries and attach no icon). -/
def detype_entry (e : DEntry) : Entry :=
  ⟨e.name, e.cb, detype_icon e.icon, e.enabled⟩

/-- Forget the dynamic typing of one registry binding. -/
def detypePair (kv : Str × List DEntry) : Str × List Entry :=
  (kv.1, kv.2.map detype_entry)

/-- Forget the dynamic typing of a registry. -/
def detype_registry (dreg : DRegistry) : Registry :=
  dreg.map detypePair

/-- Forget the dynamic typing of one `menu_groups` group. -/
def detypeGroup (tg : Str × List (Str × List DEntry)) : Str × List (Str × List Entry) :=
  (tg.1, tg.2.map detypePair)

/-- `add_nested_action` on a dynamically typed entry.  In the source the
exception surfaces when the leaf `QAction`'s icon is resolved; since an
`error` aborts the whole rebuild either way, the model resolves the icon
before navigating, which yields the same `Except` value. -/
def add_nested_action_exc (d : Str) (path : List Str) (e : DEntry) (n : Node) :
    Except PyErr Node :=
  match rendered_icon_dyn d e.icon with
  | .error er => .error er
  | .ok ic => .ok (add_nested_action path (Node.action e.name (some e.cb) ic e.enabled) n)

/-- `menu_groups` over a dynamically typed registry. -/
def mkGroupsD (title : Str) (reg : DRegistry) : List (Str × List (Str × List DEntry)) :=
  reg.foldl (fun gs kv => assocAppend (topKey title kv.1) kv gs) []

/-- Building one top-level menu, propagating exceptions. -/
def buildTop_exc (d : Str) (tg : Str × List (Str × List DEntry)) : Except PyErr Node :=
  tg.2.foldlM
    (fun m pv => pv.2.foldlM (fun m' e => add_nested_action_exc d (restKey pv.1) e m') m)
    (Node.menu tg.1 [])

/-- `_refresh_menu` with exception propagation: the rebuilt top-level menus,
or the exception that aborted the rebuild. -/
def refresh_menu_exc (d title : Str) (dreg : DRegistry) : Except PyErr (List Node) :=
  (mkGroupsD title dreg).mapM (buildTop_exc d)

/-- Icons that are truthy are strings — the well-typedness assumption under
which the rebuild cannot raise. -/
def registryIconsWellTyped (dreg : DRegistry) : Prop :=
  ∀ kv ∈ dreg, ∀ e ∈ kv.2, pyTruthy e.icon = true → ∃ s, e.icon = PyVal.str s

theorem rendered_icon_dyn_welltyped {d : Str} {i : PyVal}
    (h : pyTruthy i = true → ∃ s, i = PyVal.str s) :
    rendered_icon_dyn d i = Except.ok (rendered_icon d (detype_icon i)) := by
  cases i with
  | none => rfl
  | str s =>
    by_cases hs : s.isEmpty
    · have hnil : s = [] := by simpa using hs
      simp [rendered_icon_dyn, rendered_icon, detype_icon, hs, hnil]
    · have hnil : ¬s = [] := by simpa using hs
      simp [rendered_icon_dyn, rendered_icon, detype_icon, hs, hnil]
  | intV n =>
    by_cases hn : n = 0
    · simp [rendered_icon_dyn, rendered_icon, detype_icon, hn]
    · obtain ⟨s, hs⟩ := h (by simp [pyTruthy, hn])
      exact absurd hs (by simp)

theorem add_nested_action_exc_welltyped {d : Str} {e : DEntry}
    (h : pyTruthy e.icon = true → ∃ s, e.icon = PyVal.str s)
    (path : List Str) (n : Node) :
    add_nested_action_exc d path e n =
      Except.ok (add_nested_action path (mkAction d (detype_entry e)) n) := by
  unfold add_nested_action_exc
  rw [rendered_icon_dyn_welltyped h]
  rfl


theorem assocAppend_map {β γ : Type} (F : β → γ) (k : Str) (v : β) :
    ∀ (gs : List (Str × List β)),
      assocAppend k (F v) (gs.map (fun kv => (kv.1, kv.2.map F))) =
        (assocAppend k v gs).map (fun kv => (kv.1, kv.2.map F)) := by
  intro gs
  induction gs with
  | nil => rfl
  | cons kv gs ih =>
    obtain ⟨k', l⟩ := kv
    by_cases hk : k' = k <;> simp [assocAppend, hk, ih]

theorem mkGroups_detype (title : Str) (dreg : DRegistry) :
    mkGroups title (detype_registry dreg) = (mkGroupsD title dreg).map detypeGroup := by
  suffices h : ∀ (l : DRegistry) (acc : List (Str × List (Str × List DEntry))),
      (l.map detypePair).foldl (fun gs kv => assocAppend (topKey title kv.1) kv gs)
          (acc.map detypeGroup) =
        (l.foldl (fun gs kv => assocAppend (topKey title kv.1) kv gs) acc).map
          detypeGroup by
    simpa [mkGroups, mkGroupsD, detype_registry] using h dreg []
  intro l
  induction l with
  | nil => intro acc; rfl
  | cons kv l ih =>
    intro acc
    rw [List.map_cons, List.foldl_cons, List.foldl_cons]
    have hstep : assocAppend (topKey title (detypePair kv).1) (detypePair kv)
        (acc.map detypeGroup) =
        (assocAppend (topKey title kv.1) kv acc).map detypeGroup := by
      show assocAppend (topKey title kv.1) (detypePair kv) (acc.map detypeGroup) = _
      have := assocAppend_map detypePair (topKey title kv.1) kv acc
      simpa [detypeGroup] using this
    rw [hstep]
    exact ih _

theorem foldlM_entries_welltyped (d : Str) (path : List Str) :
    ∀ (es : List DEntry),
      (∀ e ∈ es, pyTruthy e.icon = true → ∃ s, e.icon = PyVal.str s) →
      ∀ (n : Node),
        es.foldlM (fun m' e => add_nested_action_exc d path e m') n =
          Except.ok ((es.map detype_entry).foldl
            (fun m' e => add_nested_action path (mkAction d e) m') n) := by
  intro es
  induction es with
  | nil => intro _ n; rfl
  | cons e es ih =>
    intro hwt n
    rw [List.foldlM_cons, add_nested_action_exc_welltyped (hwt e (List.mem_cons_self _ _))]
    show (es.foldlM (fun m' e => add_nested_action_exc d path e m') _) = _
    rw [ih (fun e' he' => hwt e' (List.mem_cons_of_mem _ he')) _]
    rfl

theorem foldlM_group_welltyped (d : Str) :
    ∀ (g : List (Str × List DEntry)),
      (∀ pv ∈ g, ∀ e ∈ pv.2, pyTruthy e.icon = true → ∃ s, e.icon = PyVal.str s) →
      ∀ (n : Node),
        g.foldlM (fun m pv => pv.2.foldlM
          (fun m' e => add_nested_action_exc d (restKey pv.1) e m') m) n =
          Except.ok ((g.map detypePair).foldl (fun m pv => pv.2.foldl
            (fun m' e => add_nested_action (restKey pv.1) (mkAction d e) m') m) n) := by
  intro g
  induction g with
  | nil => intro _ n; rfl
  | cons pv g ih =>
    intro hwt n
    rw [List.foldlM_cons,
      foldlM_entries_welltyped d (restKey pv.1) pv.2 (hwt pv (List.mem_cons_self _ _)) n]
    show (g.foldlM (fun m pv => pv.2.foldlM
      (fun m' e => add_nested_action_exc d (restKey pv.1) e m') m) _) = _
    rw [ih (fun pv' hpv' => hwt pv' (List.mem_cons_of_mem _ hpv')) _]
    rfl

theorem buildTop_exc_welltyped (d : Str) (tg : Str × List (Str × List DEntry))
    (hwt : ∀ pv ∈ tg.2, ∀ e ∈ pv.2, pyTruthy e.icon = true → ∃ s, e.icon = PyVal.str s) :
    buildTop_exc d tg = Except.ok (buildTop d (detypeGroup tg)) := by
  unfold buildTop_exc buildTop detypeGroup
  exact foldlM_group_welltyped d tg.2 hwt _

/-- Every registry item appearing inside the built groups is an item of the
grouped list. -/
theorem mem_of_mem_assocAppend_values {β : Type} {k : Str} {v : β} :
    ∀ {gs : List (Str × List β)} {tg : Str × List β}, tg ∈ assocAppend k v gs →
      ∀ w ∈ tg.2, (∃ tg₀ ∈ gs, w ∈ tg₀.2) ∨ w = v := by
  intro gs
  induction gs with
  | nil =>
    intro tg htg w hw
    simp only [assocAppend, List.mem_singleton] at htg
    rw [htg] at hw
    simp only [List.mem_singleton] at hw
    exact Or.inr hw
  | cons kv gs ih =>
    intro tg htg w hw
    obtain ⟨k', l⟩ := kv
    by_cases hk : k' = k
    · subst hk
      rw [show assocAppend k' v ((k', l) :: gs) = (k', l ++ [v]) :: gs from by
        simp [assocAppend]] at htg
      rcases List.mem_cons.mp htg with h1 | h1
      · rw [h1] at hw
        rcases List.mem_append.mp hw with h2 | h2
        · exact Or.inl ⟨(k', l), List.mem_cons_self _ _, h2⟩
        · exact Or.inr (List.mem_singleton.mp h2)
      · exact Or.inl ⟨tg, List.mem_cons_of_mem _ h1, hw⟩
    · rw [show assocAppend k v ((k', l) :: gs) = (k', l) :: assocAppend k v gs from by
        simp [assocAppend, hk]] at htg
      rcases List.mem_cons.mp htg with h1 | h1
      · rw [h1] at hw
        exact Or.inl ⟨(k', l), List.mem_cons_self _ _, hw⟩
      · rcases ih h1 w hw with ⟨tg₀, htg₀, hw₀⟩ | h2
        · exact Or.inl ⟨tg₀, List.mem_cons_of_mem _ htg₀, hw₀⟩
        · exact Or.inr h2

theorem mem_of_mem_mkGroupsD_values (title : Str) (dreg : DRegistry) :
    ∀ tg ∈ mkGroupsD title dreg, ∀ pv ∈ tg.2, pv ∈ dreg := by
  suffices h : ∀ (l : DRegistry) (acc : List (Str × List (Str × List DEntry))),
      (∀ tg ∈ acc, ∀ pv ∈ tg.2, pv ∈ dreg) → (∀ x ∈ l, x ∈ dreg) →
      ∀ tg ∈ l.foldl (fun gs kv => assocAppend (topKey title kv.1) kv gs) acc,
        ∀ pv ∈ tg.2, pv ∈ dreg by
    intro tg htg pv hpv
    exact h dreg [] (by simp) (fun x hx => hx) tg htg pv hpv
  intro l
  induction l with
  | nil => intro acc hacc _ tg htg pv hpv; exact hacc tg htg pv hpv
  | cons kv l ih =>
    intro acc hacc hl tg htg pv hpv
    refine ih _ ?_ (fun x hx => hl x (List.mem_cons_of_mem _ hx)) tg htg pv hpv
    intro tg' htg' pv' hpv'
    rcases mem_of_mem_assocAppend_values htg' pv' hpv' with ⟨tg₀, htg₀, hpv₀⟩ | h1
    · exact hacc tg₀ htg₀ pv' hpv₀
    · rw [h1]
      exact hl kv (List.mem_cons_self _ _)

theorem concatMap_mem {α β : Type} (f : α → List β) {a : α} {x : β} :
    ∀ {l : List α}, a ∈ l → x ∈ f a → x ∈ concatMap f l := by
  intro l
  induction l with
  | nil => intro h; simp at h
  | cons y l ih =>
    intro ha hx
    rcases List.mem_cons.mp ha with rfl | ha
    · exact List.mem_append.mpr (Or.inl hx)
    · exact List.mem_append.mpr (Or.inr (ih ha hx))

theorem mapM_buildTop_welltyped (d : Str) :
    ∀ (gs : List (Str × List (Str × List DEntry))),
      (∀ tg ∈ gs, ∀ pv ∈ tg.2, ∀ e ∈ pv.2,
        pyTruthy e.icon = true → ∃ s, e.icon = PyVal.str s) →
      gs.mapM (buildTop_exc d) =
        Except.ok (gs.map (fun tg => buildTop d (detypeGroup tg))) := by
  intro gs
  induction gs with
  | nil => intro _; rfl
  | cons tg gs ih =>
    intro h
    rw [List.mapM_cons, buildTop_exc_welltyped d tg (h tg (List.mem_cons_self _ _))]
    show (gs.mapM (buildTop_exc d)) >>= _ = _
    rw [ih (fun tg' htg' => h tg' (List.mem_cons_of_mem _ htg'))]
    rfl

theorem refresh_menu_exc_welltyped (d title : Str) (dreg : DRegistry)
    (hwt : registryIconsWellTyped dreg) :
    refresh_menu_exc d title dreg =
      Except.ok (refresh_menu d title (detype_registry dreg)) := by
  unfold refresh_menu_exc refresh_menu
  rw [mkGroups_detype, List.map_map]
  exact mapM_buildTop_welltyped d (mkGroupsD title dreg)
    (fun tg htg pv hpv e he =>
      hwt pv (mem_of_mem_mkGroupsD_values title dreg tg htg pv hpv) e he)

/-- C6 (amended) — `_refresh_menu` contains no exception handling, but for
every registry whose truthy icon fields are strings none of its operations
can fail: the rebuild returns normally (no exception), and every registered
entry's action is rendered at its leaf — regardless of whether its icon
path resolves to an existing file, since `QIcon` merely yields a null icon
for an unloadable path rather than raising.  (As stated, the claim fails:
a registry holding a truthy non-string icon makes the rebuild raise
`TypeError` out of `resolve_icon_path` with nothing caught, see the
counterexample.) -/
theorem refresh_menu_never_raises (d title : Str) (dreg : DRegistry)
    (hwt : registryIconsWellTyped dreg) :
    refresh_menu_exc d title dreg =
      Except.ok (refresh_menu d title (detype_registry dreg)) ∧
    ∀ p es, (p, es) ∈ dreg → ∀ e ∈ es,
      mkAction d (detype_entry e) ∈
        actsAtTop (refresh_menu d title (detype_registry dreg)) (coords title p) := by
  refine ⟨refresh_menu_exc_welltyped d title dreg hwt, ?_⟩
  intro p es hmem e he
  show mkAction d (detype_entry e) ∈
    actsAtTop (refresh_menu d title (detype_registry dreg)) (topKey title p, restKey p)
  rw [actsAtTop_refresh_menu]
  have hmem' : (p, es.map detype_entry) ∈ detype_registry dreg :=
    List.mem_map_of_mem detypePair hmem
  have hgrp : (p, es.map detype_entry) ∈
      groupOf title (detype_registry dreg) (topKey title p) :=
    List.mem_filter.mpr ⟨hmem', by simp⟩
  refine concatMap_mem _ hgrp ?_
  simp only [if_pos rfl]
  exact List.mem_map_of_mem (mkAction d) (List.mem_map_of_mem detype_entry he)

/-- Concrete instantiation of `refresh_menu_never_raises`: one entry with a
string icon path (which need not exist on disk) rebuilds without raising
and renders its action. -/
theorem refresh_menu_never_raises_witness :
    refresh_menu_exc (strL "/d") (strL "T")
        [([], [⟨strL "X", 1, PyVal.str (strL "missing.png"), true⟩])] =
      Except.ok (refresh_menu (strL "/d") (strL "T")
        (detype_registry [([], [⟨strL "X", 1, PyVal.str (strL "missing.png"), true⟩])])) ∧
    mkAction (strL "/d") (detype_entry ⟨strL "X", 1, PyVal.str (strL "missing.png"), true⟩) ∈
      actsAtTop (refresh_menu (strL "/d") (strL "T")
          (detype_registry [([], [⟨strL "X", 1, PyVal.str (strL "missing.png"), true⟩])]))
        (coords (strL "T") []) := by
  have hwt : registryIconsWellTyped
      [([], [⟨strL "X", 1, PyVal.str (strL "missing.png"), true⟩])] := by
    intro kv hkv e he _
    simp only [List.mem_singleton] at hkv
    subst hkv
    simp only [List.mem_singleton] at he
    subst he
    exact ⟨strL "missing.png", rfl⟩
  refine ⟨(refresh_menu_never_raises _ _ _ hwt).1, ?_⟩
  exact (refresh_menu_never_raises _ _ _ hwt).2 []
    [⟨strL "X", 1, PyVal.str (strL "missing.png"), true⟩] (by simp)
    ⟨strL "X", 1, PyVal.str (strL "missing.png"), true⟩ (by simp)

/-- Counterexample to C6 as stated: a registry holding an entry whose icon
is the truthy integer `5` makes the rebuild raise (`os.path.isabs(5)` is a
`TypeError`, and `_refresh_menu` has no handler), so the exception
propagates and the remaining entry of the registry is never rendered. -/
theorem refresh_menu_never_raises_cex :
    refresh_menu_exc (strL "/d") (strL "T")
        [([], [⟨strL "X", 1, PyVal.intV 5, true⟩, ⟨strL "Y", 2, PyVal.none, true⟩])] =
      Except.error PyErr.typeError := rfl

/-! ### Declarative tool loading: `load_tools_from_config` (src/Run_add_ons.py)

One run of `load_tools_from_config` creates a fresh `custom_menu` (the root,
titled with the configured toolbar title), clears `submenu_lookup` and maps
`""` to the root; `get_or_create_submenu(name)` creates one flat submenu per
distinct submenu string, attached directly to the root and titled with the
whole string — within a run, the non-empty keys of `submenu_lookup` are
exactly the titles of the root's submenu children, which is how the lookup
is modelled here.  Dynamic import (`importlib.import_module` + `getattr`) is
an environment from `(module, function)` name pairs to callback
identifiers; `showText` error dialogs are collected as messages. -/

/-- One record of the declarative tools file (`tools.json`): every field as
`entry.get` sees it — absent fields are `none`; `enabled` defaults to
`True`. -/
structure ToolRecord where
  rtype : Option Str
  name : Option Str
  submenu : Option Str
  icon : Option Str
  enabled : Bool
  func : Option Str
  module : Option Str
deriving DecidableEq

/-- The dynamic import environment: which `(module, function)` pairs resolve,
and to which callback. -/
abbrev ImportEnv := List ((Str × Str) × Nat)

/-- `importlib.import_module(module)` followed by `getattr(module, func)`:
`none` is the failing lookup (exception caught by the surrounding `try`). -/
def envLookup (env : ImportEnv) (m f : Str) : Option Nat :=
  match env with
  | [] => none
  | ((m', f'), cb) :: rest => if m' = m ∧ f' = f then some cb else envLookup rest m f

/-- An error dialog shown by `showText` during loading. -/
inductive Msg where
  | importErr (name : Str) (module : Str) (func : Str)
deriving DecidableEq

/-- `entry.get("type", "").strip()`. -/
def recType (e : ToolRecord) : Str := pyStrip (e.rtype.getD [])

/-- `entry.get("name", "").strip()`. -/
def recName (e : ToolRecord) : Str := pyStrip (e.name.getD [])

/-- `entry.get("submenu", "").strip()`. -/
def recKey (e : ToolRecord) : Str := pyStrip (e.submenu.getD [])

/-- `get_or_create_submenu` (src/Run_add_ons.py lines 113-118) acting on the
root menu: the empty name is the root itself; a new name appends a fresh
flat submenu titled with the whole name to the root. -/
def get_or_create_submenu (root : Node) (k : Str) : Node :=
  if k = [] then root
  else if k ∈ menuTitlesOf (nodeChildren root) then root
  else appendChild root (Node.menu k [])

/-- Append an item to the submenu registered under `k` (the root itself for
the empty key): the mutation `submenu.addAction(...)`/`addSeparator()` on
the object `submenu_lookup` returned. -/
def addToKey (root : Node) (k : Str) (item : Node) : Node :=
  match root with
  | .menu t cs =>
    if k = [] then .menu t (cs ++ [item])
    else
      match replaceFirstMenu k (fun m => appendChild m item) cs with
      | some cs' => .menu t cs'
      | none => .menu t cs
  | other => other

/-- The menu item one record contributes, when it is not skipped: a
separator, a disabled uniconed label (`name or "---"`), or — for a complete
functional record whose import resolves — an enabled-as-declared action
wired to the resolved callback with its icon resolved when truthy. -/
def itemOf (d : Str) (env : ImportEnv) (e : ToolRecord) : Option Node :=
  if recType e = strL "separator" then some Node.sep
  else if recType e = strL "label" then
    some (Node.action (if recName e = [] then strL "---" else recName e) none none false)
  else if recName e = [] ∨ optFalsy e.func = true ∨ optFalsy e.module = true then none
  else
    match envLookup env (e.module.getD []) (e.func.getD []) with
    | none => none
    | some cb =>
      some (Node.action (recName e) (some cb) (rendered_icon d e.icon) e.enabled)

/-- The error dialog one record causes, if any: only a complete functional
record whose dynamic lookup fails is reported. -/
def msgOf (env : ImportEnv) (e : ToolRecord) : Option Msg :=
  if recType e = strL "separator" then none
  else if recType e = strL "label" then none
  else if recName e = [] ∨ optFalsy e.func = true ∨ optFalsy e.module = true then none
  else
    match envLookup env (e.module.getD []) (e.func.getD []) with
    | none => some (Msg.importErr (recName e) (e.module.getD []) (e.func.getD []))
    | some _ => none

/-- One iteration of the record loop of `load_tools_from_config`
(src/Run_add_ons.py lines 130-187): the submenu named by the record is
created (or reused) first, before the record's kind or validity is
examined; then the record is dispatched. -/
def loadStep (d : Str) (env : ImportEnv) (st : Node × List Msg) (e : ToolRecord) :
    Node × List Msg :=
  let root := get_or_create_submenu st.1 (recKey e)
  if recType e = strL "separator" then (addToKey root (recKey e) Node.sep, st.2)
  else if recType e = strL "label" then
    (addToKey root (recKey e)
      (Node.action (if recName e = [] then strL "---" else recName e) none none false),
     st.2)
  else if recName e = [] ∨ optFalsy e.func = true ∨ optFalsy e.module = true then
    (root, st.2)
  else
    match envLookup env (e.module.getD []) (e.func.getD []) with
    | none =>
      (root, st.2 ++ [Msg.importErr (recName e) (e.module.getD []) (e.func.getD [])])
    | some cb =>
      (addToKey root (recKey e)
        (Node.action (recName e) (some cb) (rendered_icon d e.icon) e.enabled), st.2)

/-- Embedding of `load_tools_from_config` (src/Run_add_ons.py lines
96-188): the root `custom_menu` it builds and the error dialogs it shows,
given the records of `tools.json` in file order. -/
def load_tools_from_config (d title : Str) (env : ImportEnv)
    (entries : List ToolRecord) : Node × List Msg :=
  entries.foldl (loadStep d env) (Node.menu title [], [])

/-- The non-submenu items of a menu node, in order. -/
def plainItems (n : Node) : List Node :=
  (nodeChildren n).filter (fun c => !isMenuNode c)

/-- The items registered under a submenu key: the root's own items for the
empty key, else the items of the root child titled with the key. -/
def itemsAtKey (root : Node) (k : Str) : List Node :=
  if k = [] then plainItems root
  else
    match findMenu k (nodeChildren root) with
    | some m => plainItems m
    | none => []

/-- All items of the (flat) loaded tree, in root-traversal order: a submenu
child contributes its items, any other child contributes itself. -/
def allLoadedItems (root : Node) : List Node :=
  concatMap (fun c => if isMenuNode c then plainItems c else [c]) (nodeChildren root)

/-- A rendered item that is actionable: callback-wired and enabled. -/
def isActionable : Node → Bool
  | .action _ (some _) _ true => true
  | _ => false

/-- A rendered separator. -/
def isSepNode : Node → Bool
  | .sep => true
  | _ => false

/-- A rendered non-interactive label: no callback and disabled. -/
def isInertLabel : Node → Bool
  | .action _ none _ false => true
  | _ => false

/-! ### Lemmas on submenu creation and item insertion -/

theorem concatMap_append {α β : Type} (f : α → List β) (l₁ l₂ : List α) :
    concatMap f (l₁ ++ l₂) = concatMap f l₁ ++ concatMap f l₂ := by
  induction l₁ with
  | nil => rfl
  | cons x l ih => simp [concatMap, ih]

theorem gocs_cases (t : Str) (cs : List Node) (k : Str) :
    ((k = [] ∨ k ∈ menuTitlesOf cs) ∧
      get_or_create_submenu (Node.menu t cs) k = Node.menu t cs) ∨
    (¬(k = [] ∨ k ∈ menuTitlesOf cs) ∧
      get_or_create_submenu (Node.menu t cs) k =
        Node.menu t (cs ++ [Node.menu k []])) := by
  by_cases hk : k = []
  · exact Or.inl ⟨Or.inl hk, by simp [get_or_create_submenu, hk]⟩
  · by_cases hmem : k ∈ menuTitlesOf cs
    · exact Or.inl ⟨Or.inr hmem, by simp [get_or_create_submenu, hk, hmem, appendChild]⟩
    · refine Or.inr ⟨?_, by simp [get_or_create_submenu, hk, hmem, appendChild]⟩
      intro h
      rcases h with h | h
      · exact hk h
      · exact hmem h

theorem plainItems_menu (t : Str) (cs : List Node) :
    plainItems (Node.menu t cs) = cs.filter (fun c => !isMenuNode c) := rfl

@[simp] theorem isMenuNode_menu (t : Str) (cs : List Node) :
    isMenuNode (Node.menu t cs) = true := rfl

@[simp] theorem isMenuNode_action (n : Str) (cb : Option Nat) (ic : Option Str) (en : Bool) :
    isMenuNode (Node.action n cb ic en) = false := rfl

@[simp] theorem isMenuNode_sep : isMenuNode Node.sep = false := rfl

theorem itemsAtKey_gocs (t : Str) (cs : List Node) (k k' : Str) :
    itemsAtKey (get_or_create_submenu (Node.menu t cs) k) k' =
      itemsAtKey (Node.menu t cs) k' := by
  rcases gocs_cases t cs k with ⟨_, heq⟩ | ⟨hnot, heq⟩
  · rw [heq]
  · rw [heq]
    have hne : k ≠ [] := fun h => hnot (Or.inl h)
    have hmem : k ∉ menuTitlesOf cs := fun h => hnot (Or.inr h)
    by_cases hk' : k' = []
    · subst hk'
      simp [itemsAtKey, plainItems, List.filter_append, isMenuNode]
    · simp only [itemsAtKey, if_neg hk', nodeChildren_menu]
      cases hm : findMenu k' cs with
      | some m => rw [findMenu_append_of_some _ hm]
      | none =>
        rw [findMenu_append_of_none _ hm]
        by_cases hkk : k = k'
        · subst hkk
          simp [findMenu, plainItems]
        · simp [findMenu, hkk]

theorem allLoadedItems_gocs (t : Str) (cs : List Node) (k : Str) :
    allLoadedItems (get_or_create_submenu (Node.menu t cs) k) =
      allLoadedItems (Node.menu t cs) := by
  rcases gocs_cases t cs k with ⟨_, heq⟩ | ⟨_, heq⟩
  · rw [heq]
  · rw [heq]
    simp [allLoadedItems, concatMap_append, concatMap, isMenuNode, plainItems]

theorem titles_gocs_mono (t : Str) (cs : List Node) (k k' : Str)
    (h : k' ∈ menuTitlesOf cs) :
    k' ∈ menuTitlesOf (nodeChildren (get_or_create_submenu (Node.menu t cs) k)) := by
  rcases gocs_cases t cs k with ⟨_, heq⟩ | ⟨_, heq⟩
  · rw [heq]; exact h
  · rw [heq]
    rw [nodeChildren_menu, menuTitlesOf_append]
    exact List.mem_append.mpr (Or.inl h)

theorem titles_gocs_self (t : Str) (cs : List Node) (k : Str) (hk : k ≠ []) :
    k ∈ menuTitlesOf (nodeChildren (get_or_create_submenu (Node.menu t cs) k)) := by
  rcases gocs_cases t cs k with ⟨hc, heq⟩ | ⟨_, heq⟩
  · rw [heq]
    rcases hc with hc | hc
    · exact absurd hc hk
    · exact hc
  · rw [heq]
    rw [nodeChildren_menu, menuTitlesOf_append]
    exact List.mem_append.mpr (Or.inr (by simp))

theorem titles_gocs_nodup (t : Str) (cs : List Node) (k : Str)
    (h : (menuTitlesOf cs).Nodup) :
    (menuTitlesOf (nodeChildren (get_or_create_submenu (Node.menu t cs) k))).Nodup := by
  rcases gocs_cases t cs k with ⟨_, heq⟩ | ⟨hnot, heq⟩
  · rw [heq]; exact h
  · rw [heq]
    have hmem : k ∉ menuTitlesOf cs := fun hm => hnot (Or.inr hm)
    rw [nodeChildren_menu, menuTitlesOf_append]
    simp [List.nodup_append, h, hmem]

theorem flat_gocs (t : Str) (cs : List Node) (k : Str)
    (h : ∀ c ∈ cs, isMenuNode c = true → ∀ x ∈ nodeChildren c, isMenuNode x = false) :
    ∀ c ∈ nodeChildren (get_or_create_submenu (Node.menu t cs) k),
      isMenuNode c = true → ∀ x ∈ nodeChildren c, isMenuNode x = false := by
  rcases gocs_cases t cs k with ⟨_, heq⟩ | ⟨_, heq⟩
  · rw [heq]; exact h
  · rw [heq]
    intro c hc hmenu x hx
    rcases List.mem_append.mp hc with hc | hc
    · exact h c hc hmenu x hx
    · rcases List.mem_singleton.mp hc with rfl
      simp at hx

/-- Inserting a non-submenu item under a present key appends it to that
key's item list and leaves every other key's items unchanged. -/
theorem itemsAtKey_addToKey (t : Str) (cs : List Node) (k : Str) (item : Node)
    (hitem : isMenuNode item = false)
    (hk : k = [] ∨ k ∈ menuTitlesOf cs) (k' : Str) :
    itemsAtKey (addToKey (Node.menu t cs) k item) k' =
      itemsAtKey (Node.menu t cs) k' ++ (if k' = k then [item] else []) := by
  by_cases hknil : k = []
  · subst hknil
    show itemsAtKey (Node.menu t (cs ++ [item])) k' = _
    by_cases hk' : k' = []
    · subst hk'
      simp [itemsAtKey, plainItems, List.filter_append, hitem]
    · rw [if_neg hk']
      simp only [itemsAtKey, if_neg hk', nodeChildren_menu]
      rw [findMenu_append_single_nonmenu hitem]
      cases hm : findMenu k' cs <;> simp
  · have hkmem : k ∈ menuTitlesOf cs := by
      rcases hk with h | h
      · exact absurd h hknil
      · exact h
    have hne : replaceFirstMenu k (fun m => appendChild m item) cs ≠ none := by
      rw [Ne, replaceFirstMenu_eq_none_iff]
      simpa using hkmem
    cases hr : replaceFirstMenu k (fun m => appendChild m item) cs with
    | none => exact absurd hr hne
    | some cs' =>
      obtain ⟨pre, csc, post, hcs, hcs', hpre⟩ := replaceFirstMenu_some_decomp hr
      have hfind_pre : findMenu k pre = none := findMenu_eq_none_iff.mpr hpre
      have hato : addToKey (Node.menu t cs) k item = Node.menu t cs' := by
        simp [addToKey, hknil, hr]
      rw [hato]
      subst hcs hcs'
      by_cases hk' : k' = []
      · subst hk'
        rw [if_neg (fun h => hknil h.symm)]
        simp [itemsAtKey, plainItems, List.filter_append, List.filter_cons,
          appendChild, isMenuNode]
      · simp only [itemsAtKey, if_neg hk', nodeChildren_menu]
        cases hfp : findMenu k' pre with
        | some m =>
          rw [findMenu_append_of_some (appendChild (Node.menu k csc) item :: post) hfp,
            findMenu_append_of_some (Node.menu k csc :: post) hfp]
          have hne' : ¬k' = k := by
            intro hEq
            subst hEq
            rw [hfind_pre] at hfp
            exact Option.noConfusion hfp
          simp [hne']
        | none =>
          rw [findMenu_append_of_none _ hfp, findMenu_append_of_none _ hfp]
          by_cases hkk : k' = k
          · subst hkk
            show (match findMenu k' (Node.menu k' (csc ++ [item]) :: post) with
              | some m => plainItems m
              | none => []) = _
            simp only [findMenu, if_true, eq_self_iff_true]
            simp [plainItems, List.filter_append, hitem]
          · have hkk' : ¬k = k' := fun h => hkk h.symm
            show (match findMenu k' (Node.menu k (csc ++ [item]) :: post) with
              | some m => plainItems m
              | none => []) = _
            simp only [findMenu, if_neg hkk']
            cases hpost : findMenu k' post <;> simp [hkk]

/-- Inserting a non-submenu item under a present key adds exactly that item
to the flat item multiset. -/
theorem countP_allLoadedItems_addToKey (t : Str) (cs : List Node) (k : Str) (item : Node)
    (hitem : isMenuNode item = false)
    (hk : k = [] ∨ k ∈ menuTitlesOf cs) (p : Node → Bool) :
    (allLoadedItems (addToKey (Node.menu t cs) k item)).countP p =
      (allLoadedItems (Node.menu t cs)).countP p + (if p item then 1 else 0) := by
  by_cases hknil : k = []
  · subst hknil
    show (allLoadedItems (Node.menu t (cs ++ [item]))).countP p = _
    rw [allLoadedItems, nodeChildren_menu, concatMap_append]
    simp [allLoadedItems, concatMap, hitem, List.countP_append, List.countP_cons]
  · have hkmem : k ∈ menuTitlesOf cs := by
      rcases hk with h | h
      · exact absurd h hknil
      · exact h
    have hne : replaceFirstMenu k (fun m => appendChild m item) cs ≠ none := by
      rw [Ne, replaceFirstMenu_eq_none_iff]
      simpa using hkmem
    cases hr : replaceFirstMenu k (fun m => appendChild m item) cs with
    | none => exact absurd hr hne
    | some cs' =>
      obtain ⟨pre, csc, post, hcs, hcs', hpre⟩ := replaceFirstMenu_some_decomp hr
      have hato : addToKey (Node.menu t cs) k item = Node.menu t cs' := by
        simp [addToKey, hknil, hr]
      rw [hato]
      subst hcs hcs'
      rw [allLoadedItems, allLoadedItems, nodeChildren_menu, nodeChildren_menu,
        concatMap_append, concatMap_append]
      simp only [concatMap]
      have hmid : (if isMenuNode (appendChild (Node.menu k csc) item) = true then
          plainItems (appendChild (Node.menu k csc) item)
          else [appendChild (Node.menu k csc) item]) =
          List.filter (fun c => !isMenuNode c) csc ++ [item] := by
        simp [appendChild, plainItems, List.filter_append, hitem]
      have hmid0 : (if isMenuNode (Node.menu k csc) = true then
          plainItems (Node.menu k csc) else [Node.menu k csc]) =
          List.filter (fun c => !isMenuNode c) csc := by
        simp [plainItems]
      rw [hmid, hmid0]
      simp only [List.countP_append]
      by_cases hp : p item = true <;> simp [List.countP_cons, hp] <;> omega

theorem titles_addToKey (t : Str) (cs : List Node) (k : Str) (item : Node)
    (hitem : isMenuNode item = false) :
    menuTitlesOf (nodeChildren (addToKey (Node.menu t cs) k item)) =
      menuTitlesOf cs := by
  by_cases hknil : k = []
  · subst hknil
    show menuTitlesOf (cs ++ [item]) = _
    rw [menuTitlesOf_append]
    cases item <;> simp_all [isMenuNode]
  · cases hr : replaceFirstMenu k (fun m => appendChild m item) cs with
    | none => simp [addToKey, hknil, hr]
    | some cs' =>
      obtain ⟨pre, csc, post, hcs, hcs', hpre⟩ := replaceFirstMenu_some_decomp hr
      have hato : addToKey (Node.menu t cs) k item = Node.menu t cs' := by
        simp [addToKey, hknil, hr]
      rw [hato]
      subst hcs hcs'
      rw [nodeChildren_menu, menuTitlesOf_append, menuTitlesOf_append]
      simp [appendChild]

theorem flat_addToKey (t : Str) (cs : List Node) (k : Str) (item : Node)
    (hitem : isMenuNode item = false)
    (h : ∀ c ∈ cs, isMenuNode c = true → ∀ x ∈ nodeChildren c, isMenuNode x = false) :
    ∀ c ∈ nodeChildren (addToKey (Node.menu t cs) k item),
      isMenuNode c = true → ∀ x ∈ nodeChildren c, isMenuNode x = false := by
  by_cases hknil : k = []
  · subst hknil
    intro c hc hmenu x hx
    rcases List.mem_append.mp hc with hc | hc
    · exact h c hc hmenu x hx
    · rcases List.mem_singleton.mp hc with rfl
      rw [hitem] at hmenu
      exact Bool.noConfusion hmenu
  · cases hr : replaceFirstMenu k (fun m => appendChild m item) cs with
    | none =>
      intro c hc hmenu x hx
      rw [show addToKey (Node.menu t cs) k item = Node.menu t cs from by
        simp [addToKey, hknil, hr]] at hc
      exact h c hc hmenu x hx
    | some cs' =>
      obtain ⟨pre, csc, post, hcs, hcs', hpre⟩ := replaceFirstMenu_some_decomp hr
      have hato : addToKey (Node.menu t cs) k item = Node.menu t cs' := by
        simp [addToKey, hknil, hr]
      rw [hato]
      subst hcs hcs'
      intro c hc hmenu x hx
      rcases List.mem_append.mp hc with hc | hc
      · exact h c (List.mem_append.mpr (Or.inl hc)) hmenu x hx
      · rcases List.mem_cons.mp hc with rfl | hc
        · simp only [appendChild, nodeChildren_menu] at hx
          rcases List.mem_append.mp hx with hx | hx
          · exact h (Node.menu k csc)
              (List.mem_append.mpr (Or.inr (List.mem_cons_self _ _)))
              (by simp [isMenuNode]) x hx
          · rcases List.mem_singleton.mp hx with rfl
            exact hitem
        · exact h c (List.mem_append.mpr (Or.inr (List.mem_cons_of_mem _ hc))) hmenu x hx

theorem gocs_shape (t : Str) (cs : List Node) (k : Str) :
    ∃ cs₂, get_or_create_submenu (Node.menu t cs) k = Node.menu t cs₂ := by
  rcases gocs_cases t cs k with ⟨_, h⟩ | ⟨_, h⟩ <;> exact ⟨_, h⟩

theorem addToKey_shape (t : Str) (cs : List Node) (k : Str) (item : Node) :
    ∃ cs', addToKey (Node.menu t cs) k item = Node.menu t cs' := by
  by_cases hk : k = []
  · exact ⟨cs ++ [item], by simp [addToKey, hk]⟩
  · cases hr : replaceFirstMenu k (fun m => appendChild m item) cs with
    | some cs' => exact ⟨cs', by simp [addToKey, hk, hr]⟩
    | none => exact ⟨cs, by simp [addToKey, hk, hr]⟩

theorem loadStep_shape (d : Str) (env : ImportEnv) (t : Str) (cs : List Node)
    (msgs : List Msg) (e : ToolRecord) :
    ∃ cs₂, (loadStep d env (Node.menu t cs, msgs) e).1 = Node.menu t cs₂ := by
  simp only [loadStep]
  obtain ⟨cs₁, hcs₁⟩ := gocs_shape t cs (recKey e)
  rw [hcs₁]
  by_cases hsep : recType e = strL "separator"
  · rw [if_pos hsep]
    exact addToKey_shape t cs₁ _ _
  · rw [if_neg hsep]
    by_cases hlab : recType e = strL "label"
    · rw [if_pos hlab]
      exact addToKey_shape t cs₁ _ _
    · rw [if_neg hlab]
      by_cases hbad : recName e = [] ∨ optFalsy e.func = true ∨ optFalsy e.module = true
      · rw [if_pos hbad]
        exact ⟨cs₁, rfl⟩
      · rw [if_neg hbad]
        cases hlk : envLookup env (e.module.getD []) (e.func.getD []) with
        | none => exact ⟨cs₁, rfl⟩
        | some cb => exact addToKey_shape t cs₁ _ _

/-- The key named by a record is available (root or an existing submenu
title) right after `get_or_create_submenu` ran for it. -/
theorem gocs_key_available (t : Str) (cs : List Node) (k : Str) :
    k = [] ∨ k ∈ menuTitlesOf (nodeChildren (get_or_create_submenu (Node.menu t cs) k)) := by
  by_cases h : k = []
  · exact Or.inl h
  · exact Or.inr (titles_gocs_self t cs k h)

theorem itemOf_sep {d : Str} {env : ImportEnv} {e : ToolRecord}
    (h : recType e = strL "separator") : itemOf d env e = some Node.sep := by
  simp [itemOf, h]

theorem itemOf_label {d : Str} {env : ImportEnv} {e : ToolRecord}
    (hsep : ¬recType e = strL "separator") (hlab : recType e = strL "label") :
    itemOf d env e =
      some (Node.action (if recName e = [] then strL "---" else recName e)
        none none false) := by
  simp [itemOf, hsep, hlab]

theorem itemOf_malformed {d : Str} {env : ImportEnv} {e : ToolRecord}
    (hsep : ¬recType e = strL "separator") (hlab : ¬recType e = strL "label")
    (hbad : recName e = [] ∨ optFalsy e.func = true ∨ optFalsy e.module = true) :
    itemOf d env e = none := by
  simp only [itemOf]
  rw [if_neg hsep, if_neg hlab, if_pos hbad]

theorem itemOf_lookup_none {d : Str} {env : ImportEnv} {e : ToolRecord}
    (hsep : ¬recType e = strL "separator") (hlab : ¬recType e = strL "label")
    (hbad : ¬(recName e = [] ∨ optFalsy e.func = true ∨ optFalsy e.module = true))
    (hlk : envLookup env (e.module.getD []) (e.func.getD []) = none) :
    itemOf d env e = none := by
  simp only [itemOf, hlk]
  rw [if_neg hsep, if_neg hlab, if_neg hbad]

theorem itemOf_lookup_some {d : Str} {env : ImportEnv} {e : ToolRecord} {cb : Nat}
    (hsep : ¬recType e = strL "separator") (hlab : ¬recType e = strL "label")
    (hbad : ¬(recName e = [] ∨ optFalsy e.func = true ∨ optFalsy e.module = true))
    (hlk : envLookup env (e.module.getD []) (e.func.getD []) = some cb) :
    itemOf d env e =
      some (Node.action (recName e) (some cb) (rendered_icon d e.icon) e.enabled) := by
  simp only [itemOf, hlk]
  rw [if_neg hsep, if_neg hlab, if_neg hbad]

theorem msgOf_sep {env : ImportEnv} {e : ToolRecord}
    (h : recType e = strL "separator") : msgOf env e = none := by
  simp [msgOf, h]

theorem msgOf_label {env : ImportEnv} {e : ToolRecord}
    (hsep : ¬recType e = strL "separator") (hlab : recType e = strL "label") :
    msgOf env e = none := by
  simp [msgOf, hsep, hlab]

theorem msgOf_malformed {env : ImportEnv} {e : ToolRecord}
    (hsep : ¬recType e = strL "separator") (hlab : ¬recType e = strL "label")
    (hbad : recName e = [] ∨ optFalsy e.func = true ∨ optFalsy e.module = true) :
    msgOf env e = none := by
  simp only [msgOf]
  rw [if_neg hsep, if_neg hlab, if_pos hbad]

theorem msgOf_lookup_none {env : ImportEnv} {e : ToolRecord}
    (hsep : ¬recType e = strL "separator") (hlab : ¬recType e = strL "label")
    (hbad : ¬(recName e = [] ∨ optFalsy e.func = true ∨ optFalsy e.module = true))
    (hlk : envLookup env (e.module.getD []) (e.func.getD []) = none) :
    msgOf env e =
      some (Msg.importErr (recName e) (e.module.getD []) (e.func.getD [])) := by
  simp only [msgOf, hlk]
  rw [if_neg hsep, if_neg hlab, if_neg hbad]

theorem msgOf_lookup_some {env : ImportEnv} {e : ToolRecord} {cb : Nat}
    (hsep : ¬recType e = strL "separator") (hlab : ¬recType e = strL "label")
    (hbad : ¬(recName e = [] ∨ optFalsy e.func = true ∨ optFalsy e.module = true))
    (hlk : envLookup env (e.module.getD []) (e.func.getD []) = some cb) :
    msgOf env e = none := by
  simp only [msgOf, hlk]
  rw [if_neg hsep, if_neg hlab, if_neg hbad]

/-- One record's effect on the items registered under each key: the record's
item (if it contributes one) is appended under its own key, and every other
key is untouched. -/
theorem loadStep_items (d : Str) (env : ImportEnv) (t : Str) (cs : List Node)
    (msgs : List Msg) (e : ToolRecord) (k' : Str) :
    itemsAtKey (loadStep d env (Node.menu t cs, msgs) e).1 k' =
      itemsAtKey (Node.menu t cs) k' ++
        (if k' = recKey e then (itemOf d env e).toList else []) := by
  simp only [loadStep]
  obtain ⟨cs₁, hcs₁⟩ := gocs_shape t cs (recKey e)
  have hkey := gocs_key_available t cs (recKey e)
  rw [hcs₁] at hkey ⊢
  simp only [nodeChildren_menu] at hkey
  have hgocs : itemsAtKey (Node.menu t cs₁) k' = itemsAtKey (Node.menu t cs) k' := by
    rw [← hcs₁]
    exact itemsAtKey_gocs t cs (recKey e) k'
  by_cases hsep : recType e = strL "separator"
  · rw [if_pos hsep]
    show itemsAtKey (addToKey (Node.menu t cs₁) (recKey e) Node.sep) k' = _
    rw [itemsAtKey_addToKey t cs₁ (recKey e) Node.sep rfl hkey k', hgocs,
      itemOf_sep hsep]
    rfl
  · rw [if_neg hsep]
    by_cases hlab : recType e = strL "label"
    · rw [if_pos hlab]
      show itemsAtKey (addToKey (Node.menu t cs₁) (recKey e)
        (Node.action (if recName e = [] then strL "---" else recName e) none none false))
        k' = _
      rw [itemsAtKey_addToKey t cs₁ (recKey e)
          (Node.action (if recName e = [] then strL "---" else recName e) none none false)
          rfl hkey k', hgocs, itemOf_label hsep hlab]
      rfl
    · rw [if_neg hlab]
      by_cases hbad : recName e = [] ∨ optFalsy e.func = true ∨ optFalsy e.module = true
      · rw [if_pos hbad]
        show itemsAtKey (Node.menu t cs₁) k' = _
        rw [hgocs, itemOf_malformed hsep hlab hbad]
        simp
      · rw [if_neg hbad]
        cases hlk : envLookup env (e.module.getD []) (e.func.getD []) with
        | none =>
          show itemsAtKey (Node.menu t cs₁) k' = _
          rw [hgocs, itemOf_lookup_none hsep hlab hbad hlk]
          simp
        | some cb =>
          show itemsAtKey (addToKey (Node.menu t cs₁) (recKey e)
            (Node.action (recName e) (some cb) (rendered_icon d e.icon) e.enabled)) k' = _
          rw [itemsAtKey_addToKey t cs₁ (recKey e)
              (Node.action (recName e) (some cb) (rendered_icon d e.icon) e.enabled)
              rfl hkey k', hgocs, itemOf_lookup_some hsep hlab hbad hlk]
          rfl

/-- One record's effect on the shown error dialogs. -/
theorem loadStep_msgs (d : Str) (env : ImportEnv) (t : Str) (cs : List Node)
    (msgs : List Msg) (e : ToolRecord) :
    (loadStep d env (Node.menu t cs, msgs) e).2 = msgs ++ (msgOf env e).toList := by
  simp only [loadStep]
  obtain ⟨cs₁, hcs₁⟩ := gocs_shape t cs (recKey e)
  rw [hcs₁]
  by_cases hsep : recType e = strL "separator"
  · rw [if_pos hsep, msgOf_sep hsep]
    simp
  · rw [if_neg hsep]
    by_cases hlab : recType e = strL "label"
    · rw [if_pos hlab, msgOf_label hsep hlab]
      simp
    · rw [if_neg hlab]
      by_cases hbad : recName e = [] ∨ optFalsy e.func = true ∨ optFalsy e.module = true
      · rw [if_pos hbad, msgOf_malformed hsep hlab hbad]
        simp
      · rw [if_neg hbad]
        cases hlk : envLookup env (e.module.getD []) (e.func.getD []) with
        | none =>
          rw [msgOf_lookup_none hsep hlab hbad hlk]
          rfl
        | some cb =>
          rw [msgOf_lookup_some hsep hlab hbad hlk]
          simp

/-- One record's effect on the flat item multiset, counted. -/
theorem loadStep_countP (d : Str) (env : ImportEnv) (t : Str) (cs : List Node)
    (msgs : List Msg) (e : ToolRecord) (p : Node → Bool) :
    (allLoadedItems (loadStep d env (Node.menu t cs, msgs) e).1).countP p =
      (allLoadedItems (Node.menu t cs)).countP p +
        ((itemOf d env e).toList.countP p) := by
  simp only [loadStep]
  obtain ⟨cs₁, hcs₁⟩ := gocs_shape t cs (recKey e)
  have hkey := gocs_key_available t cs (recKey e)
  rw [hcs₁] at hkey ⊢
  simp only [nodeChildren_menu] at hkey
  have hgocs : allLoadedItems (Node.menu t cs₁) = allLoadedItems (Node.menu t cs) := by
    rw [← hcs₁]
    exact allLoadedItems_gocs t cs (recKey e)
  by_cases hsep : recType e = strL "separator"
  · rw [if_pos hsep]
    show (allLoadedItems (addToKey (Node.menu t cs₁) (recKey e) Node.sep)).countP p = _
    rw [countP_allLoadedItems_addToKey t cs₁ (recKey e) Node.sep rfl hkey p, hgocs,
      itemOf_sep hsep]
    simp [List.countP_cons]
  · rw [if_neg hsep]
    by_cases hlab : recType e = strL "label"
    · rw [if_pos hlab]
      show (allLoadedItems (addToKey (Node.menu t cs₁) (recKey e)
        (Node.action (if recName e = [] then strL "---" else recName e) none none false))
        ).countP p = _
      rw [countP_allLoadedItems_addToKey t cs₁ (recKey e)
          (Node.action (if recName e = [] then strL "---" else recName e) none none false)
          rfl hkey p, hgocs, itemOf_label hsep hlab]
      simp [List.countP_cons]
    · rw [if_neg hlab]
      by_cases hbad : recName e = [] ∨ optFalsy e.func = true ∨ optFalsy e.module = true
      · rw [if_pos hbad]
        show (allLoadedItems (Node.menu t cs₁)).countP p = _
        rw [hgocs, itemOf_malformed hsep hlab hbad]
        simp
      · rw [if_neg hbad]
        cases hlk : envLookup env (e.module.getD []) (e.func.getD []) with
        | none =>
          show (allLoadedItems (Node.menu t cs₁)).countP p = _
          rw [hgocs, itemOf_lookup_none hsep hlab hbad hlk]
          simp
        | some cb =>
          show (allLoadedItems (addToKey (Node.menu t cs₁) (recKey e)
            (Node.action (recName e) (some cb) (rendered_icon d e.icon) e.enabled))
            ).countP p = _
          rw [countP_allLoadedItems_addToKey t cs₁ (recKey e)
              (Node.action (recName e) (some cb) (rendered_icon d e.icon) e.enabled)
              rfl hkey p, hgocs, itemOf_lookup_some hsep hlab hbad hlk]
          simp [List.countP_cons]

/-- A record never changes the set of submenu titles beyond what
`get_or_create_submenu` created for it. -/
theorem loadStep_titles (d : Str) (env : ImportEnv) (t : Str) (cs : List Node)
    (msgs : List Msg) (e : ToolRecord) :
    menuTitlesOf (nodeChildren (loadStep d env (Node.menu t cs, msgs) e).1) =
      menuTitlesOf (nodeChildren (get_or_create_submenu (Node.menu t cs) (recKey e))) := by
  simp only [loadStep]
  obtain ⟨cs₁, hcs₁⟩ := gocs_shape t cs (recKey e)
  rw [hcs₁]
  by_cases hsep : recType e = strL "separator"
  · rw [if_pos hsep]
    exact titles_addToKey t cs₁ (recKey e) Node.sep rfl
  · rw [if_neg hsep]
    by_cases hlab : recType e = strL "label"
    · rw [if_pos hlab]
      exact titles_addToKey t cs₁ (recKey e) _ rfl
    · rw [if_neg hlab]
      by_cases hbad : recName e = [] ∨ optFalsy e.func = true ∨ optFalsy e.module = true
      · rw [if_pos hbad]
      · rw [if_neg hbad]
        cases hlk : envLookup env (e.module.getD []) (e.func.getD []) with
        | none => rfl
        | some cb => exact titles_addToKey t cs₁ (recKey e) _ rfl

theorem loadStep_flat (d : Str) (env : ImportEnv) (t : Str) (cs : List Node)
    (msgs : List Msg) (e : ToolRecord)
    (h : ∀ c ∈ cs, isMenuNode c = true → ∀ x ∈ nodeChildren c, isMenuNode x = false) :
    ∀ c ∈ nodeChildren (loadStep d env (Node.menu t cs, msgs) e).1,
      isMenuNode c = true → ∀ x ∈ nodeChildren c, isMenuNode x = false := by
  simp only [loadStep]
  obtain ⟨cs₁, hcs₁⟩ := gocs_shape t cs (recKey e)
  have hflat₁ : ∀ c ∈ cs₁, isMenuNode c = true →
      ∀ x ∈ nodeChildren c, isMenuNode x = false := by
    intro c hc
    refine flat_gocs t cs (recKey e) h c ?_
    rw [hcs₁]
    exact hc
  rw [hcs₁]
  by_cases hsep : recType e = strL "separator"
  · rw [if_pos hsep]
    exact flat_addToKey t cs₁ (recKey e) Node.sep rfl hflat₁
  · rw [if_neg hsep]
    by_cases hlab : recType e = strL "label"
    · rw [if_pos hlab]
      exact flat_addToKey t cs₁ (recKey e) _ rfl hflat₁
    · rw [if_neg hlab]
      by_cases hbad : recName e = [] ∨ optFalsy e.func = true ∨ optFalsy e.module = true
      · rw [if_pos hbad]
        exact hflat₁
      · rw [if_neg hbad]
        cases hlk : envLookup env (e.module.getD []) (e.func.getD []) with
        | none => exact hflat₁
        | some cb => exact flat_addToKey t cs₁ (recKey e) _ rfl hflat₁

/-! ### Folding the whole record list -/

theorem load_fold_items (d : Str) (env : ImportEnv) :
    ∀ (entries : List ToolRecord) (t : Str) (cs : List Node) (msgs : List Msg) (k' : Str),
      itemsAtKey ((entries.foldl (loadStep d env) (Node.menu t cs, msgs)).1) k' =
        itemsAtKey (Node.menu t cs) k' ++
          concatMap (fun e => if k' = recKey e then (itemOf d env e).toList else [])
            entries := by
  intro entries
  induction entries with
  | nil =>
    intro t cs msgs k'
    simp [concatMap]
  | cons e es ih =>
    intro t cs msgs k'
    rw [List.foldl_cons]
    obtain ⟨cs₂, hcs₂⟩ := loadStep_shape d env t cs msgs e
    have hpair : loadStep d env (Node.menu t cs, msgs) e =
        (Node.menu t cs₂, (loadStep d env (Node.menu t cs, msgs) e).2) := by
      rw [← hcs₂]
    rw [hpair, ih t cs₂ _ k']
    have hstep := loadStep_items d env t cs msgs e k'
    rw [hcs₂] at hstep
    rw [hstep]
    simp [concatMap, List.append_assoc]

theorem load_fold_msgs (d : Str) (env : ImportEnv) :
    ∀ (entries : List ToolRecord) (t : Str) (cs : List Node) (msgs : List Msg),
      (entries.foldl (loadStep d env) (Node.menu t cs, msgs)).2 =
        msgs ++ concatMap (fun e => (msgOf env e).toList) entries := by
  intro entries
  induction entries with
  | nil =>
    intro t cs msgs
    simp [concatMap]
  | cons e es ih =>
    intro t cs msgs
    rw [List.foldl_cons]
    obtain ⟨cs₂, hcs₂⟩ := loadStep_shape d env t cs msgs e
    have hpair : loadStep d env (Node.menu t cs, msgs) e =
        (Node.menu t cs₂, (loadStep d env (Node.menu t cs, msgs) e).2) := by
      rw [← hcs₂]
    rw [hpair, ih t cs₂ _]
    rw [loadStep_msgs d env t cs msgs e]
    simp [concatMap, List.append_assoc]

theorem load_fold_countP (d : Str) (env : ImportEnv) :
    ∀ (entries : List ToolRecord) (t : Str) (cs : List Node) (msgs : List Msg)
      (p : Node → Bool),
      (allLoadedItems ((entries.foldl (loadStep d env) (Node.menu t cs, msgs)).1)).countP p =
        (allLoadedItems (Node.menu t cs)).countP p +
          (entries.filterMap (itemOf d env)).countP p := by
  intro entries
  induction entries with
  | nil =>
    intro t cs msgs p
    simp
  | cons e es ih =>
    intro t cs msgs p
    rw [List.foldl_cons]
    obtain ⟨cs₂, hcs₂⟩ := loadStep_shape d env t cs msgs e
    have hpair : loadStep d env (Node.menu t cs, msgs) e =
        (Node.menu t cs₂, (loadStep d env (Node.menu t cs, msgs) e).2) := by
      rw [← hcs₂]
    rw [hpair, ih t cs₂ _ p]
    have hstep := loadStep_countP d env t cs msgs e p
    rw [hcs₂] at hstep
    rw [hstep]
    cases hio : itemOf d env e with
    | none => simp [List.filterMap_cons, hio]
    | some it =>
      simp only [List.filterMap_cons, hio, List.countP_cons, Option.toList_some,
        List.countP_nil]
      omega

theorem load_fold_titles_mono (d : Str) (env : ImportEnv) :
    ∀ (entries : List ToolRecord) (t : Str) (cs : List Node) (msgs : List Msg) (k₀ : Str),
      k₀ ∈ menuTitlesOf cs →
      k₀ ∈ menuTitlesOf
        (nodeChildren ((entries.foldl (loadStep d env) (Node.menu t cs, msgs)).1)) := by
  intro entries
  induction entries with
  | nil => intro t cs msgs k₀ h; exact h
  | cons e es ih =>
    intro t cs msgs k₀ h
    rw [List.foldl_cons]
    obtain ⟨cs₂, hcs₂⟩ := loadStep_shape d env t cs msgs e
    have hpair : loadStep d env (Node.menu t cs, msgs) e =
        (Node.menu t cs₂, (loadStep d env (Node.menu t cs, msgs) e).2) := by
      rw [← hcs₂]
    rw [hpair]
    refine ih t cs₂ _ k₀ ?_
    have hstep := loadStep_titles d env t cs msgs e
    rw [hcs₂] at hstep
    have : k₀ ∈ menuTitlesOf (nodeChildren (Node.menu t cs₂)) := by
      rw [hstep]
      exact titles_gocs_mono t cs (recKey e) k₀ h
    simpa using this

theorem load_fold_titles_self (d : Str) (env : ImportEnv) :
    ∀ (entries : List ToolRecord) (t : Str) (cs : List Node) (msgs : List Msg)
      (e : ToolRecord), e ∈ entries → recKey e ≠ [] →
      recKey e ∈ menuTitlesOf
        (nodeChildren ((entries.foldl (loadStep d env) (Node.menu t cs, msgs)).1)) := by
  intro entries
  induction entries with
  | nil => intro t cs msgs e he; simp at he
  | cons e₀ es ih =>
    intro t cs msgs e he hne
    rw [List.foldl_cons]
    obtain ⟨cs₂, hcs₂⟩ := loadStep_shape d env t cs msgs e₀
    have hpair : loadStep d env (Node.menu t cs, msgs) e₀ =
        (Node.menu t cs₂, (loadStep d env (Node.menu t cs, msgs) e₀).2) := by
      rw [← hcs₂]
    rw [hpair]
    rcases List.mem_cons.mp he with rfl | he
    · refine load_fold_titles_mono d env es t cs₂ _ (recKey e) ?_
      have hstep := loadStep_titles d env t cs msgs e
      rw [hcs₂] at hstep
      have : recKey e ∈ menuTitlesOf (nodeChildren (Node.menu t cs₂)) := by
        rw [hstep]
        exact titles_gocs_self t cs (recKey e) hne
      simpa using this
    · exact ih t cs₂ _ e he hne

theorem load_fold_titles_nodup (d : Str) (env : ImportEnv) :
    ∀ (entries : List ToolRecord) (t : Str) (cs : List Node) (msgs : List Msg),
      (menuTitlesOf cs).Nodup →
      (menuTitlesOf
        (nodeChildren ((entries.foldl (loadStep d env) (Node.menu t cs, msgs)).1))).Nodup := by
  intro entries
  induction entries with
  | nil => intro t cs msgs h; exact h
  | cons e es ih =>
    intro t cs msgs h
    rw [List.foldl_cons]
    obtain ⟨cs₂, hcs₂⟩ := loadStep_shape d env t cs msgs e
    have hpair : loadStep d env (Node.menu t cs, msgs) e =
        (Node.menu t cs₂, (loadStep d env (Node.menu t cs, msgs) e).2) := by
      rw [← hcs₂]
    rw [hpair]
    refine ih t cs₂ _ ?_
    have hstep := loadStep_titles d env t cs msgs e
    rw [hcs₂] at hstep
    have : (menuTitlesOf (nodeChildren (Node.menu t cs₂))).Nodup := by
      rw [hstep]
      exact titles_gocs_nodup t cs (recKey e) h
    simpa using this

theorem load_fold_flat (d : Str) (env : ImportEnv) :
    ∀ (entries : List ToolRecord) (t : Str) (cs : List Node) (msgs : List Msg),
      (∀ c ∈ cs, isMenuNode c = true → ∀ x ∈ nodeChildren c, isMenuNode x = false) →
      ∀ c ∈ nodeChildren ((entries.foldl (loadStep d env) (Node.menu t cs, msgs)).1),
        isMenuNode c = true → ∀ x ∈ nodeChildren c, isMenuNode x = false := by
  intro entries
  induction entries with
  | nil => intro t cs msgs h; exact h
  | cons e es ih =>
    intro t cs msgs h
    rw [List.foldl_cons]
    obtain ⟨cs₂, hcs₂⟩ := loadStep_shape d env t cs msgs e
    have hpair : loadStep d env (Node.menu t cs, msgs) e =
        (Node.menu t cs₂, (loadStep d env (Node.menu t cs, msgs) e).2) := by
      rw [← hcs₂]
    rw [hpair]
    refine ih t cs₂ _ ?_
    intro c hc
    have hstep := loadStep_flat d env t cs msgs e h
    rw [hcs₂] at hstep
    exact hstep c (by simpa using hc)

theorem itemsAtKey_empty_root (title : Str) (k : Str) :
    itemsAtKey (Node.menu title []) k = [] := by
  by_cases hk : k = []
  · subst hk
    rfl
  · simp [itemsAtKey, hk, findMenu]

/-! ### Claims about the declarative loader -/

/-- C10 — `load_tools_from_config` calls `get_or_create_submenu` on every
record's submenu name before examining the record's kind or validity, so
every record — separators, labels, and malformed or unresolvable functional
records included — leaves its named submenu node in the tree even when the
record itself is skipped. -/
theorem load_tools_submenu_created (d title : Str) (env : ImportEnv)
    (entries : List ToolRecord) :
    ∀ e ∈ entries, recKey e ≠ [] →
      recKey e ∈ menuTitlesOf
        (nodeChildren (load_tools_from_config d title env entries).1) := by
  intro e he hne
  exact load_fold_titles_self d env entries title [] [] e he hne

/-- Concrete instantiation of `load_tools_submenu_created`: a malformed
functional record (no module) still creates its `Extras` submenu, while
contributing no item and no error dialog. -/
theorem load_tools_submenu_created_witness :
    itemOf (strL "/d") [] ⟨none, some (strL "Broken"), some (strL "Extras"), none, true,
      some (strL "f"), none⟩ = none ∧
    msgOf [] ⟨none, some (strL "Broken"), some (strL "Extras"), none, true,
      some (strL "f"), none⟩ = none ∧
    recKey (⟨none, some (strL "Broken"), some (strL "Extras"), none, true,
      some (strL "f"), none⟩ : ToolRecord) ∈
      menuTitlesOf (nodeChildren (load_tools_from_config (strL "/d") (strL "CT") []
        [⟨none, some (strL "Broken"), some (strL "Extras"), none, true,
          some (strL "f"), none⟩]).1) :=
  ⟨rfl, rfl,
   load_tools_submenu_created (strL "/d") (strL "CT") [] _ _ (by decide) (by decide)⟩

/-- C4 (amended) — during declarative tool loading the submenu field is
used as an opaque key, not split at `"::"`: the loader creates exactly one
submenu node per distinct (stripped) submenu string, titled with the whole
string and attached directly under the root (no nesting, so every submenu
child is a flat leaf menu), and a record's item is placed in the node
registered under its full submenu string. -/
theorem load_tools_flat_keys (d title : Str) (env : ImportEnv)
    (entries : List ToolRecord) :
    (menuTitlesOf (nodeChildren (load_tools_from_config d title env entries).1)).Nodup ∧
    (∀ c ∈ nodeChildren (load_tools_from_config d title env entries).1,
      isMenuNode c = true → ∀ x ∈ nodeChildren c, isMenuNode x = false) ∧
    (∀ e ∈ entries, ∀ it, itemOf d env e = some it →
      it ∈ itemsAtKey (load_tools_from_config d title env entries).1 (recKey e)) := by
  refine ⟨?_, ?_, ?_⟩
  · exact load_fold_titles_nodup d env entries title [] [] (by simp)
  · exact load_fold_flat d env entries title [] [] (by simp)
  · intro e he it hit
    show it ∈ itemsAtKey ((entries.foldl (loadStep d env) (Node.menu title [], [])).1)
      (recKey e)
    rw [load_fold_items d env entries title [] [] (recKey e), itemsAtKey_empty_root]
    refine List.mem_append.mpr (Or.inr (concatMap_mem _ he ?_))
    rw [if_pos rfl, hit]
    simp

/-- Concrete instantiation of `load_tools_flat_keys` at a record whose
submenu field contains the `"::"` separator. -/
theorem load_tools_flat_keys_witness :
    (menuTitlesOf (nodeChildren (load_tools_from_config (strL "/d") (strL "CT")
        [((strL "m", strL "f"), 0)]
        [⟨none, some (strL "T1"), some (strL "A::B"), none, true, some (strL "f"),
          some (strL "m")⟩]).1)).Nodup ∧
    itemOf (strL "/d") [((strL "m", strL "f"), 0)]
        ⟨none, some (strL "T1"), some (strL "A::B"), none, true, some (strL "f"),
          some (strL "m")⟩ =
      some (Node.action (strL "T1") (some 0) none true) ∧
    Node.action (strL "T1") (some 0) none true ∈
      itemsAtKey (load_tools_from_config (strL "/d") (strL "CT")
        [((strL "m", strL "f"), 0)]
        [⟨none, some (strL "T1"), some (strL "A::B"), none, true, some (strL "f"),
          some (strL "m")⟩]).1
        (recKey (⟨none, some (strL "T1"), some (strL "A::B"), none, true, some (strL "f"),
          some (strL "m")⟩ : ToolRecord)) :=
  ⟨(load_tools_flat_keys (strL "/d") (strL "CT") _ _).1, by rfl,
   (load_tools_flat_keys (strL "/d") (strL "CT") _ _).2.2 _ (by decide) _ (by rfl)⟩

/-- Counterexample to C4 as stated: a record with submenu `"A::B"` yields a
single flat node titled with the whole string `"A::B"` directly under the
root — there is no node per path segment and no nested chain (no node
titled `"A"` exists at all). -/
theorem load_tools_nested_path_cex :
    menuTitlesOf (nodeChildren (load_tools_from_config (strL "/d") (strL "CT")
        [((strL "m", strL "f"), 0)]
        [⟨none, some (strL "T1"), some (strL "A::B"), none, true, some (strL "f"),
          some (strL "m")⟩]).1) = [strL "A::B"] ∧
    (navigate (load_tools_from_config (strL "/d") (strL "CT")
        [((strL "m", strL "f"), 0)]
        [⟨none, some (strL "T1"), some (strL "A::B"), none, true, some (strL "f"),
          some (strL "m")⟩]).1 [strL "A"]).isSome = false := by
  exact ⟨by decide, by decide⟩

/-- C5 — error handling of declarative loading: the error dialogs shown are
exactly one import-failure report per complete functional record whose
dynamic lookup fails (in file order), and the items registered under every
key are exactly those of the records that were not skipped — so a skipped
record contributes nothing while every other record, before or after it, is
still processed.  A functional record missing its name, `function` or
`module` field is skipped silently: it contributes neither an item nor a
dialog; a complete functional record whose lookup fails is reported and
contributes no item. -/
theorem load_tools_error_handling (d title : Str) (env : ImportEnv)
    (entries : List ToolRecord) :
    ((load_tools_from_config d title env entries).2 =
      concatMap (fun e => (msgOf env e).toList) entries) ∧
    (∀ k, itemsAtKey (load_tools_from_config d title env entries).1 k =
      concatMap (fun e => if k = recKey e then (itemOf d env e).toList else []) entries) ∧
    (∀ e : ToolRecord, ¬recType e = strL "separator" → ¬recType e = strL "label" →
      (recName e = [] ∨ optFalsy e.func = true ∨ optFalsy e.module = true) →
      itemOf d env e = none ∧ msgOf env e = none) ∧
    (∀ e : ToolRecord, ¬recType e = strL "separator" → ¬recType e = strL "label" →
      ¬(recName e = [] ∨ optFalsy e.func = true ∨ optFalsy e.module = true) →
      envLookup env (e.module.getD []) (e.func.getD []) = none →
      itemOf d env e = none ∧
      msgOf env e = some (Msg.importErr (recName e) (e.module.getD [])
        (e.func.getD []))) := by
  refine ⟨?_, ?_, ?_, ?_⟩
  · show (entries.foldl (loadStep d env) (Node.menu title [], [])).2 = _
    rw [load_fold_msgs d env entries title [] []]
    rfl
  · intro k
    show itemsAtKey ((entries.foldl (loadStep d env) (Node.menu title [], [])).1) k = _
    rw [load_fold_items d env entries title [] [] k, itemsAtKey_empty_root]
    rfl
  · intro e hsep hlab hbad
    exact ⟨itemOf_malformed hsep hlab hbad, msgOf_malformed hsep hlab hbad⟩
  · intro e hsep hlab hbad hlk
    exact ⟨itemOf_lookup_none hsep hlab hbad hlk, msgOf_lookup_none hsep hlab hbad hlk⟩

/-- Concrete instantiation of `load_tools_error_handling`: a malformed
record, a lookup-failure record and a well-formed record in one file — one
dialog is shown (for the lookup failure only) and only the well-formed
record's item is registered; the per-record conjuncts are instantiated at
the malformed and failing records. -/
theorem load_tools_error_handling_witness :
    ((load_tools_from_config (strL "/d") (strL "CT") [((strL "m", strL "f"), 3)]
        [⟨none, some (strL "NoModule"), none, none, true, some (strL "f"), none⟩,
         ⟨none, some (strL "Bad"), none, none, true, some (strL "g"), some (strL "m")⟩,
         ⟨none, some (strL "Good"), none, none, true, some (strL "f"),
           some (strL "m")⟩]).2 =
      [Msg.importErr (strL "Bad") (strL "m") (strL "g")]) ∧
    (itemsAtKey (load_tools_from_config (strL "/d") (strL "CT")
        [((strL "m", strL "f"), 3)]
        [⟨none, some (strL "NoModule"), none, none, true, some (strL "f"), none⟩,
         ⟨none, some (strL "Bad"), none, none, true, some (strL "g"), some (strL "m")⟩,
         ⟨none, some (strL "Good"), none, none, true, some (strL "f"),
           some (strL "m")⟩]).1 [] =
      [Node.action (strL "Good") (some 3) none true]) ∧
    (itemOf (strL "/d") [((strL "m", strL "f"), 3)]
        ⟨none, some (strL "NoModule"), none, none, true, some (strL "f"), none⟩ = none ∧
      msgOf [((strL "m", strL "f"), 3)]
        ⟨none, some (strL "NoModule"), none, none, true, some (strL "f"), none⟩ = none) ∧
    (itemOf (strL "/d") [((strL "m", strL "f"), 3)]
        ⟨none, some (strL "Bad"), none, none, true, some (strL "g"), some (strL "m")⟩ =
        none ∧
      msgOf [((strL "m", strL "f"), 3)]
        ⟨none, some (strL "Bad"), none, none, true, some (strL "g"), some (strL "m")⟩ =
        some (Msg.importErr (strL "Bad") (strL "m") (strL "g"))) :=
  by
  have h := load_tools_error_handling (strL "/d") (strL "CT") [((strL "m", strL "f"), 3)]
    [⟨none, some (strL "NoModule"), none, none, true, some (strL "f"), none⟩,
     ⟨none, some (strL "Bad"), none, none, true, some (strL "g"), some (strL "m")⟩,
     ⟨none, some (strL "Good"), none, none, true, some (strL "f"), some (strL "m")⟩]
  exact ⟨h.1.trans (by rfl), (h.2.1 []).trans (by rfl),
    h.2.2.1 _ (by decide) (by decide) (by decide),
    h.2.2.2 _ (by decide) (by decide) (by decide) (by decide)⟩

/-- C8 — a declaration file holding (in any order) exactly one separator
record, one label record and one complete functional record that resolves
and is enabled renders exactly one actionable item (callback-wired and
enabled), exactly one separator, and exactly one inert label (no callback,
disabled). -/
theorem load_tools_one_actionable (d title : Str) (env : ImportEnv)
    (entries : List ToolRecord) (s l f : ToolRecord) (cb : Nat)
    (hperm : entries.Perm [s, l, f])
    (hs : recType s = strL "separator")
    (hlsep : ¬recType l = strL "separator") (hl : recType l = strL "label")
    (hfsep : ¬recType f = strL "separator") (hflab : ¬recType f = strL "label")
    (hfok : ¬(recName f = [] ∨ optFalsy f.func = true ∨ optFalsy f.module = true))
    (hlk : envLookup env (f.module.getD []) (f.func.getD []) = some cb)
    (hen : f.enabled = true) :
    (allLoadedItems (load_tools_from_config d title env entries).1).countP
      isActionable = 1 ∧
    (allLoadedItems (load_tools_from_config d title env entries).1).countP
      isSepNode = 1 ∧
    (allLoadedItems (load_tools_from_config d title env entries).1).countP
      isInertLabel = 1 := by
  have hcount : ∀ p : Node → Bool,
      (allLoadedItems (load_tools_from_config d title env entries).1).countP p =
        (List.filterMap (itemOf d env) [s, l, f]).countP p := by
    intro p
    show (allLoadedItems ((entries.foldl (loadStep d env)
      (Node.menu title [], [])).1)).countP p = _
    rw [load_fold_countP d env entries title [] [] p]
    have hperm' := (hperm.filterMap (itemOf d env)).countP_eq p
    simp [hperm', show allLoadedItems (Node.menu title []) = [] from rfl]
  have hitems : List.filterMap (itemOf d env) [s, l, f] =
      [Node.sep,
       Node.action (if recName l = [] then strL "---" else recName l) none none false,
       Node.action (recName f) (some cb) (rendered_icon d f.icon) f.enabled] := by
    simp [List.filterMap_cons, itemOf_sep hs, itemOf_label hlsep hl,
      itemOf_lookup_some hfsep hflab hfok hlk]
  refine ⟨?_, ?_, ?_⟩
  all_goals {
    rw [hcount, hitems]
    simp [List.countP_cons, isActionable, isSepNode, isInertLabel, hen]
  }

/-- Concrete instantiation of `load_tools_one_actionable`. -/
theorem load_tools_one_actionable_witness :
    (allLoadedItems (load_tools_from_config (strL "/d") (strL "CT")
        [((strL "m", strL "f"), 7)]
        [⟨some (strL "separator"), none, none, none, true, none, none⟩,
         ⟨some (strL "label"), some (strL "Lbl"), none, none, true, none, none⟩,
         ⟨none, some (strL "Tool"), none, none, true, some (strL "f"),
           some (strL "m")⟩]).1).countP isActionable = 1 ∧
    (allLoadedItems (load_tools_from_config (strL "/d") (strL "CT")
        [((strL "m", strL "f"), 7)]
        [⟨some (strL "separator"), none, none, none, true, none, none⟩,
         ⟨some (strL "label"), some (strL "Lbl"), none, none, true, none, none⟩,
         ⟨none, some (strL "Tool"), none, none, true, some (strL "f"),
           some (strL "m")⟩]).1).countP isSepNode = 1 ∧
    (allLoadedItems (load_tools_from_config (strL "/d") (strL "CT")
        [((strL "m", strL "f"), 7)]
        [⟨some (strL "separator"), none, none, none, true, none, none⟩,
         ⟨some (strL "label"), some (strL "Lbl"), none, none, true, none, none⟩,
         ⟨none, some (strL "Tool"), none, none, true, some (strL "f"),
           some (strL "m")⟩]).1).countP isInertLabel = 1 :=
  load_tools_one_actionable (strL "/d") (strL "CT") [((strL "m", strL "f"), 7)] _ _ _ _ 7
    (List.Perm.refl _) (by decide) (by decide) (by decide) (by decide) (by decide)
    (by decide) (by decide) (by decide)

/-! ### The editor's save/load pipeline (src/toolbar_editor.py)

`ToolbarManager.save_tools` reads the table rows back into record
dictionaries (stripping every text cell, reading the `enabled` checkbox as
a boolean), rewrites the visual `"↕ Divider"` rows and canonical divider
names to `type = "separator"` records (popping `type` from every other
record), runs a report-only import check that mutates nothing, appends a
canonical `Toolbar Settings` record when no row carries that name
(case-insensitively), and writes the list.  `ToolbarManager.load_tools`
parses the file and populates the table with one row per record, skipping
separators, divider-named records, and the `Toolbar Settings` record.
The JSON file itself round-trips these flat string/bool records exactly, so
the file content is modelled as the record list `save_tools` produces. -/

/-- One row of the editor table: the six columns of `TOOL_FIELDS`, the
`enabled` cell being a checkbox. -/
structure TableRow where
  name : Str
  module : Str
  function : Str
  submenu : Str
  icon : Str
  enabled : Bool
deriving DecidableEq

/-- One record of the written `actions.json`. -/
structure SavedRecord where
  name : Str
  module : Str
  function : Str
  submenu : Str
  icon : Str
  enabled : Bool
  rtype : Option Str
deriving DecidableEq

/-- The canonical divider display names recognized by the editor. -/
def dividerNames : List Str :=
  [strL "---", strL "—", strL "——", strL "———", strL "————", strL "—————"]

/-- Reading one table row back into a record (src/toolbar_editor.py lines
218-234): text cells stripped, checkbox to boolean, the visual
`"↕ Divider"` row normalized to a canonical separator record. -/
def rowEntry (r : TableRow) : SavedRecord :=
  if pyStrip r.name = strL "↕ Divider" then
    ⟨strL "———", [], [], pyStrip r.submenu, pyStrip r.icon, r.enabled,
      some (strL "separator")⟩
  else
    ⟨pyStrip r.name, pyStrip r.module, pyStrip r.function, pyStrip r.submenu,
      pyStrip r.icon, r.enabled, none⟩

/-- The second save pass (src/toolbar_editor.py lines 237-242): canonical
divider names become `type = "separator"`, every other record has its
`type` key popped. -/
def markSeparator (rec : SavedRecord) : SavedRecord :=
  if pyStrip rec.name ∈ dividerNames then
    ⟨rec.name, rec.module, rec.function, rec.submenu, rec.icon, rec.enabled,
      some (strL "separator")⟩
  else
    ⟨rec.name, rec.module, rec.function, rec.submenu, rec.icon, rec.enabled, none⟩

/-- Whether some record is named `Toolbar Settings`, case-insensitively
(src/toolbar_editor.py lines 259-261). -/
def hasToolbarSettings (recs : List SavedRecord) : Bool :=
  recs.any (fun rec => pyLower (pyStrip rec.name) = strL "toolbar settings")

/-- The canonical record appended when no `Toolbar Settings` row exists
(src/toolbar_editor.py lines 262-270); the icon is
`CONFIG.get("default_icon", "icons/bent_menu-burger.svg")`, a parameter
here. -/
def toolbarSettingsEntry (defIcon : Str) : SavedRecord :=
  ⟨strL "Toolbar Settings", strL "Main_Toolbar.toolbar_editor",
    strL "edit_toolbar_json", [], defIcon, true, none⟩

/-- Embedding of `ToolbarManager.save_tools` (src/toolbar_editor.py lines
208-292): the record list written to `actions.json`.  The import-check pass
only shows dialogs and mutates nothing; the backup/rename and the JSON
serialization itself are file-system effects outside the model. -/
def save_tools (defIcon : Str) (rows : List TableRow) : List SavedRecord :=
  let tools := (rows.map rowEntry).map markSeparator
  if hasToolbarSettings tools then tools else tools ++ [toolbarSettingsEntry defIcon]

/-- One record's table row under `ToolbarManager.load_tools` /
`add_row` (src/toolbar_editor.py lines 150-200): separators, divider-named
records and the `Toolbar Settings` record are not displayed; any other
record fills one row with its fields verbatim (`str(tool.get(key))`), the
checkbox being checked exactly for `enabled = True` (`str(True).lower()`
is `"true"`). -/
def load_row (rec : SavedRecord) : Option TableRow :=
  if rec.rtype = some (strL "separator") ∨ pyStrip rec.name ∈ dividerNames ∨
      pyLower (pyStrip rec.name) = strL "toolbar settings" then none
  else some ⟨rec.name, rec.module, rec.function, rec.submenu, rec.icon, rec.enabled⟩

/-- Embedding of the table-population loop of `ToolbarManager.load_tools`. -/
def load_tools_table (recs : List SavedRecord) : List TableRow :=
  recs.filterMap load_row

/-- A row the editor's save/load cycle preserves verbatim: its text fields
are already stripped and its name is not one of the special names the
pipeline rewrites (divider markers) or hides on load (divider markers and
`Toolbar Settings`). -/
def GoodRow (r : TableRow) : Prop :=
  pyStrip r.name = r.name ∧ pyStrip r.module = r.module ∧
  pyStrip r.function = r.function ∧ pyStrip r.submenu = r.submenu ∧
  pyStrip r.icon = r.icon ∧ r.name ∉ dividerNames ∧
  r.name ≠ strL "↕ Divider" ∧ pyLower r.name ≠ strL "toolbar settings"

theorem load_row_toolbarSettingsEntry (defIcon : Str) :
    load_row (toolbarSettingsEntry defIcon) = none := rfl

/-- C7 (amended) — for every table of well-formed rows whose string fields
are whitespace-stripped and whose names are none of the special names
(divider markers, `"↕ Divider"`, `Toolbar Settings` case-insensitively),
saving the declaration file and loading it back restores exactly the same
rows, every field unchanged; the `Toolbar Settings` record the save appends
is hidden again by the load. -/
theorem save_load_round_trip (defIcon : Str) (rows : List TableRow)
    (h : ∀ r ∈ rows, GoodRow r) :
    load_tools_table (save_tools defIcon rows) = rows := by
  have hrec : ∀ r ∈ rows, markSeparator (rowEntry r) =
      ⟨r.name, r.module, r.function, r.submenu, r.icon, r.enabled, none⟩ := by
    intro r hr
    obtain ⟨hn, hm, hf, hs, hi, hnd, hnD, hnts⟩ := h r hr
    have h1 : (r.name = strL "↕ Divider") = False := eq_false hnD
    have h2 : (r.name ∈ dividerNames) = False := eq_false hnd
    simp only [rowEntry, markSeparator, hn, hm, hf, hs, hi, h1, h2, if_false]
  have hload : ∀ r ∈ rows, load_row (markSeparator (rowEntry r)) = some r := by
    intro r hr
    obtain ⟨hn, _, _, _, _, hnd, _, hnts⟩ := h r hr
    rw [hrec r hr]
    have h2 : (r.name ∈ dividerNames) = False := eq_false hnd
    have h3 : (pyLower r.name = strL "toolbar settings") = False := eq_false hnts
    simp only [load_row, hn, h2, h3, reduceCtorEq, false_or, or_self, if_false]
  have hts : hasToolbarSettings ((rows.map rowEntry).map markSeparator) = false := by
    rw [hasToolbarSettings, List.any_eq_false]
    intro rec hrec'
    rw [List.map_map] at hrec'
    obtain ⟨r, hr, hr'⟩ := List.mem_map.mp hrec'
    obtain ⟨hn, _, _, _, _, _, _, hnts⟩ := h r hr
    rw [show (markSeparator ∘ rowEntry) r = markSeparator (rowEntry r) from rfl,
      hrec r hr] at hr'
    rw [← hr']
    simp only [decide_eq_true_eq]
    show ¬pyLower (pyStrip r.name) = strL "toolbar settings"
    rw [hn]
    exact hnts
  have hmain : ∀ (l : List TableRow),
      (∀ r ∈ l, load_row (markSeparator (rowEntry r)) = some r) →
      List.filterMap (load_row ∘ (markSeparator ∘ rowEntry)) l = l := by
    intro l
    induction l with
    | nil => intro _; rfl
    | cons r rs ih =>
      intro hl
      rw [List.filterMap_cons]
      rw [show (load_row ∘ (markSeparator ∘ rowEntry)) r =
        load_row (markSeparator (rowEntry r)) from rfl,
        hl r (List.mem_cons_self _ _)]
      rw [ih (fun r' hr' => hl r' (List.mem_cons_of_mem _ hr'))]
  rw [save_tools]
  simp only [hts, Bool.false_eq_true, if_false]
  rw [load_tools_table, List.filterMap_append, List.map_map, List.filterMap_map]
  rw [hmain rows hload]
  rw [show List.filterMap load_row [toolbarSettingsEntry defIcon] = [] from by
    rw [List.filterMap_cons, load_row_toolbarSettingsEntry]
    rfl]
  simp

/-- Concrete instantiation of `save_load_round_trip`: one well-formed
functional row survives a save/load cycle verbatim. -/
theorem save_load_round_trip_witness :
    load_tools_table (save_tools (strL "icons/x.svg")
        [⟨strL "My Tool", strL "Main_Toolbar.modules.IMG_dupes", strL "run",
          strL "Extras", strL "icons/a.png", true⟩]) =
      [⟨strL "My Tool", strL "Main_Toolbar.modules.IMG_dupes", strL "run",
        strL "Extras", strL "icons/a.png", true⟩] :=
  save_load_round_trip (strL "icons/x.svg") _ (by
    intro r hr
    rw [List.mem_singleton] at hr
    subst hr
    exact ⟨rfl, rfl, rfl, rfl, rfl, by decide, by decide, by decide⟩)

/-- Counterexample to C7 as stated: a well-formed record whose name carries
surrounding whitespace (all six fields present) does not round-trip — the
save strips the name, so the reloaded row differs in that field. -/
theorem save_load_round_trip_cex :
    load_tools_table (save_tools (strL "icons/x.svg")
        [⟨strL " My Tool ", strL "m", strL "f", [], [], true⟩]) ≠
      [⟨strL " My Tool ", strL "m", strL "f", [], [], true⟩] := by
  decide

/-- C9 — every record list `save_tools` writes contains a record named
`Toolbar Settings` (case-insensitively): when the table holds no such row,
the canonical functional record referencing
`Main_Toolbar.toolbar_editor.edit_toolbar_json` is appended to the written
list before the file write. -/
theorem save_tools_toolbar_settings (defIcon : Str) (rows : List TableRow) :
    hasToolbarSettings (save_tools defIcon rows) = true ∧
    (hasToolbarSettings ((rows.map rowEntry).map markSeparator) = false →
      save_tools defIcon rows =
        (rows.map rowEntry).map markSeparator ++ [toolbarSettingsEntry defIcon]) := by
  cases hts : hasToolbarSettings ((rows.map rowEntry).map markSeparator) with
  | true =>
    have hts2 : hasToolbarSettings (List.map (markSeparator ∘ rowEntry) rows) = true := by
      rw [List.map_map] at hts
      exact hts
    constructor
    · simp [save_tools, hts, hts2]
    · intro hc
      exact absurd hc (by decide)
  | false =>
    constructor
    · simp only [save_tools, hts, Bool.false_eq_true, if_false]
      rw [hasToolbarSettings, List.any_eq_true]
      exact ⟨toolbarSettingsEntry defIcon, by simp, rfl⟩
    · intro hc
      simp only [save_tools, hts, Bool.false_eq_true, if_false]

/-- Concrete instantiation of `save_tools_toolbar_settings`: saving an empty
table writes exactly the canonical `Toolbar Settings` record. -/
theorem save_tools_toolbar_settings_witness :
    hasToolbarSettings (save_tools (strL "icons/x.svg") []) = true ∧
    save_tools (strL "icons/x.svg") [] = [toolbarSettingsEntry (strL "icons/x.svg")] :=
  ⟨(save_tools_toolbar_settings (strL "icons/x.svg") []).1,
   ((save_tools_toolbar_settings (strL "icons/x.svg") []).2 (by decide)).trans (by rfl)⟩

end MainToolbar
